import Mathlib

/-!
Verification of the dictionary-blending and document-comparison engine of
`nitpick` (`src/nitpick/blender.py`).

Python strings are embedded as `List Char`, Python values (the JSON-like
data the blender operates on) as the inductive type `Val`, and Python
dicts as association lists in insertion order.  Functions that can raise
an exception in Python are embedded as `Option`-valued functions
(`none` = the call raises).
-/

namespace Blender

/-- Embedding of a Python `str` as a list of characters. -/
abbrev PyStr := List Char

/-- The double-quote character `"`. -/
def dq : Char := Char.ofNat 34

/-- The single-quote character. -/
def sq : Char := Char.ofNat 39

/-- `SEPARATOR_FLATTEN = "$#@"` from blender.py. -/
def SEPARATOR_FLATTEN : PyStr := "$#@".toList

/-- `SEPARATOR_QUOTED_SPLIT = "#$@"` from blender.py. -/
def SEPARATOR_QUOTED_SPLIT : PyStr := "#$@".toList

/-- `DOT = "."` (from nitpick.constants). -/
def DOT : PyStr := ".".toList

/-- Python `s.startswith(pat)`: `starts pat s` is true when `pat` is an
initial segment of `s`. -/
def starts : PyStr → PyStr → Bool
  | [], _ => true
  | _ :: _, [] => false
  | p :: ps, c :: cs => p == c && starts ps cs

/-- Python `pat in s` (substring containment). -/
def hasSub (pat : PyStr) : PyStr → Bool
  | [] => starts pat []
  | c :: cs => starts pat (c :: cs) || hasSub pat cs

/-- Locate the first occurrence of `sep` in `s`: returns the part before
the occurrence and the part after it. -/
def findSep (sep : PyStr) : PyStr → Option (PyStr × PyStr)
  | [] => if starts sep [] then some ([], ([] : PyStr).drop sep.length) else none
  | c :: cs =>
    if starts sep (c :: cs) then some ([], (c :: cs).drop sep.length)
    else (findSep sep cs).map (fun pr => (c :: pr.1, pr.2))

theorem starts_iff_append (pat s : PyStr) :
    starts pat s = true ↔ ∃ r, s = pat ++ r := by
  induction pat generalizing s with
  | nil => simp [starts]
  | cons p ps ih =>
    cases s with
    | nil => simp [starts]
    | cons c cs =>
      simp only [starts, Bool.and_eq_true, beq_iff_eq, ih, List.cons_append,
        List.cons.injEq]
      constructor
      · rintro ⟨rfl, r, rfl⟩; exact ⟨r, rfl, rfl⟩
      · rintro ⟨r, rfl, rfl⟩; exact ⟨rfl, r, rfl⟩

theorem starts_append (pat r : PyStr) : starts pat (pat ++ r) = true :=
  (starts_iff_append pat (pat ++ r)).2 ⟨r, rfl⟩

theorem findSep_eq_some (sep : PyStr) (s p q : PyStr)
    (h : findSep sep s = some (p, q)) : s = p ++ sep ++ q := by
  induction s generalizing p with
  | nil =>
    simp only [findSep] at h
    split at h
    · rename_i hst
      have hsep : sep = [] := by
        cases sep with
        | nil => rfl
        | cons a as => simp [starts] at hst
      subst hsep
      simp only [List.drop_nil, Option.some.injEq, Prod.mk.injEq] at h
      obtain ⟨h1, h2⟩ := h
      subst h1; subst h2; rfl
    · exact absurd h (by simp)
  | cons c cs ih =>
    simp only [findSep] at h
    split at h
    · rename_i hst
      obtain ⟨r, hr⟩ := (starts_iff_append _ _).1 hst
      simp only [Option.some.injEq, Prod.mk.injEq] at h
      obtain ⟨h1, h2⟩ := h
      subst h1
      rw [hr, List.drop_left] at h2
      subst h2
      simpa using hr
    · cases hfind : findSep sep cs with
      | none => rw [hfind] at h; simp at h
      | some pr =>
        rw [hfind] at h
        simp only [Option.map_some', Option.some.injEq] at h
        obtain ⟨h1, h2⟩ := Prod.mk.inj h
        subst h2
        have := ih pr.1 (by rw [hfind])
        rw [← h1]
        simp [this]

theorem findSep_length (sep : PyStr) (hsep : sep ≠ []) (s p q : PyStr)
    (h : findSep sep s = some (p, q)) : q.length < s.length := by
  have hs := findSep_eq_some sep s p q h
  subst hs
  have hpos : 0 < sep.length := List.length_pos.mpr hsep
  simp [List.length_append]
  omega

/-- `splitSep` with an explicit recursion budget, so that the definition
reduces by kernel computation; it is only applied with `fuel ≥ s.length`,
where the budget never runs out (`splitSepF_congr`). -/
def splitSepF (sep : PyStr) : Nat → PyStr → List PyStr
  | 0, s => [s]
  | fuel+1, s =>
    match findSep sep s with
    | none => [s]
    | some (p, q) => p :: splitSepF sep fuel q

/-- Python `s.split(sep)` for a non-empty separator (the code never splits
on an empty separator; for completeness `splitSep [] s = [s]`). -/
def splitSep (sep : PyStr) (s : PyStr) : List PyStr :=
  if sep = [] then [s] else splitSepF sep s.length s

theorem findSep_nil_of_ne (sep : PyStr) (hsep : sep ≠ []) :
    findSep sep [] = none := by
  cases sep with
  | nil => exact absurd rfl hsep
  | cons a as => simp [findSep, starts]

theorem splitSepF_of_findSep_none (sep : PyStr) (s : PyStr)
    (h : findSep sep s = none) : ∀ fuel, splitSepF sep fuel s = [s] := by
  intro fuel
  cases fuel with
  | zero => rfl
  | succ n => simp [splitSepF, h]

theorem splitSepF_congr (sep : PyStr) (hsep : sep ≠ []) :
    ∀ fuel1 fuel2 s, s.length ≤ fuel1 → s.length ≤ fuel2 →
      splitSepF sep fuel1 s = splitSepF sep fuel2 s := by
  intro fuel1
  induction fuel1 with
  | zero =>
    intro fuel2 s h1 _
    have hs : s = [] := List.length_eq_zero.mp (Nat.le_zero.mp h1)
    subst hs
    rw [splitSepF_of_findSep_none sep [] (findSep_nil_of_ne sep hsep),
      splitSepF_of_findSep_none sep [] (findSep_nil_of_ne sep hsep)]
  | succ n ih =>
    intro fuel2 s h1 h2
    cases fuel2 with
    | zero =>
      have hs : s = [] := List.length_eq_zero.mp (Nat.le_zero.mp h2)
      subst hs
      rw [splitSepF_of_findSep_none sep [] (findSep_nil_of_ne sep hsep),
        splitSepF_of_findSep_none sep [] (findSep_nil_of_ne sep hsep)]
    | succ m =>
      cases hfind : findSep sep s with
      | none => simp [splitSepF, hfind]
      | some pr =>
        obtain ⟨p, q⟩ := pr
        have hlen := findSep_length sep hsep s p q hfind
        simp only [splitSepF, hfind]
        rw [ih m q (by omega) (by omega)]

/-- Python `s.replace(pat, repl)` (same leftmost non-overlapping scan as
`split` followed by joining with `repl`); the code never calls it with an
empty pattern. -/
def pyReplace (pat repl s : PyStr) : PyStr :=
  match splitSep pat s with
  | [] => []
  | [x] => x
  | x :: y :: ys => x ++ repl ++ joinWith repl (y :: ys)
where
  joinWith (repl : PyStr) : List PyStr → PyStr
    | [] => []
    | [x] => x
    | x :: y :: ys => x ++ repl ++ joinWith repl (y :: ys)

/-- Joining path segments with a separator (no quoting). -/
def joinSep (sep : PyStr) : List PyStr → PyStr
  | [] => []
  | [x] => x
  | x :: y :: ys => x ++ sep ++ joinSep sep (y :: ys)

/-- A separator has no self-overlap: no non-trivial suffix of it is also
one of its own initial segments.  Both separators used by the code
(`"$#@"` and `"."`) satisfy this. -/
def overlapFreeB (sep : PyStr) : Bool :=
  (List.range sep.length).all fun k =>
    k == 0 || !(sep.drop k == sep.take (sep.length - k))

theorem overlapFreeB_spec (sep : PyStr) (h : overlapFreeB sep = true) :
    ∀ k, 0 < k → k < sep.length → sep.drop k ≠ sep.take (sep.length - k) := by
  intro k hk hlt heq
  have := (List.all_eq_true.mp h) k (List.mem_range.mpr hlt)
  simp only [Bool.or_eq_true, beq_iff_eq, Bool.not_eq_true', beq_eq_false_iff_ne] at this
  rcases this with h0 | hne
  · omega
  · exact hne heq

theorem starts_hasSub (pat s : PyStr) (h : starts pat s = true) :
    hasSub pat s = true := by
  cases s with
  | nil =>
    cases pat with
    | nil => simp [hasSub, starts]
    | cons p ps => simp [starts] at h
  | cons c cs => simp [hasSub, h]

theorem hasSub_nil_pat (s : PyStr) : hasSub ([] : PyStr) s = true := by
  cases s <;> simp [hasSub, starts]

theorem findSep_none_of_no_sub (sep : PyStr) (s : PyStr)
    (h : hasSub sep s = false) : findSep sep s = none := by
  induction s with
  | nil =>
    simp only [hasSub] at h
    simp [findSep, h]
  | cons c cs ih =>
    simp only [hasSub, Bool.or_eq_false_iff] at h
    simp [findSep, h.1, ih h.2]

theorem splitSep_no_sub (sep : PyStr) (s : PyStr)
    (h : hasSub sep s = false) : splitSep sep s = [s] := by
  have hsep : sep ≠ [] := by
    intro he; subst he; rw [hasSub_nil_pat] at h; exact absurd h (by simp)
  rw [splitSep, if_neg hsep]
  exact splitSepF_of_findSep_none sep s (findSep_none_of_no_sub sep s h) _

theorem findSep_cons (sep : PyStr) (c : Char) (cs : PyStr) :
    findSep sep (c :: cs)
      = if starts sep (c :: cs) then some ([], (c :: cs).drop sep.length)
        else (findSep sep cs).map (fun pr => (c :: pr.1, pr.2)) := rfl

/-- The first occurrence of `sep` in `x ++ sep ++ r` for an `x` not
containing `sep` is the explicit one, provided `sep` has no self-overlap. -/
theorem findSep_boundary (sep : PyStr) (hsep : sep ≠ [])
    (hov : overlapFreeB sep = true) (x r : PyStr) (hx : hasSub sep x = false) :
    findSep sep (x ++ sep ++ r) = some (x, r) := by
  induction x with
  | nil =>
    simp only [List.nil_append]
    obtain ⟨a, as, rfl⟩ : ∃ a as, sep = a :: as := by
      cases sep with
      | nil => exact absurd rfl hsep
      | cons a as => exact ⟨a, as, rfl⟩
    rw [show (a :: as) ++ r = a :: (as ++ r) from rfl, findSep_cons]
    rw [show a :: (as ++ r) = (a :: as) ++ r from rfl, starts_append, if_pos rfl]
    rw [List.drop_left]
  | cons c cs ih =>
    simp only [hasSub, Bool.or_eq_false_iff] at hx
    have hnostart : starts sep ((c :: cs) ++ sep ++ r) = false := by
      by_contra hcon
      rw [Bool.not_eq_false] at hcon
      obtain ⟨t, ht⟩ := (starts_iff_append _ _).1 hcon
      rw [List.append_assoc] at ht
      by_cases hlen : sep.length ≤ (c :: cs).length
      · have htake : ((c :: cs) ++ (sep ++ r)).take sep.length
            = (c :: cs).take sep.length := by
          rw [List.take_append_eq_append_take,
            Nat.sub_eq_zero_of_le hlen, List.take_zero, List.append_nil]
        have htake2 : ((sep : List Char) ++ t).take sep.length = sep := by
          rw [List.take_left]
        have hst : (c :: cs).take sep.length = sep := by
          rw [← htake, ht, htake2]
        have hstart : starts sep (c :: cs) = true := by
          rw [starts_iff_append]
          refine ⟨(c :: cs).drop sep.length, ?_⟩
          conv_lhs => rw [← List.take_append_drop sep.length (c :: cs)]
          rw [hst]
        rw [hstart] at hx
        exact absurd hx.1 (by simp)
      · push_neg at hlen
        have hkpos : 0 < (c :: cs).length := by simp
        set k := (c :: cs).length with hk
        have hdropA : ((c :: cs) ++ (sep ++ r)).drop k = sep ++ r := by
          rw [List.drop_left]
        have hdropB : ((sep : List Char) ++ t).drop k
            = sep.drop k ++ t := by
          rw [List.drop_append_eq_append_drop,
            Nat.sub_eq_zero_of_le (le_of_lt hlen), List.drop_zero]
        have hstar : (sep : List Char) ++ r = sep.drop k ++ t := by
          rw [← hdropA, ht, hdropB]
        have htakeA : ((sep : List Char) ++ r).take (sep.length - k)
            = sep.take (sep.length - k) := by
          rw [List.take_append_eq_append_take]
          have h0 : sep.length - k - sep.length = 0 := by omega
          rw [h0, List.take_zero, List.append_nil]
        have htakeB : ((sep.drop k : List Char) ++ t).take (sep.length - k)
            = sep.drop k := by
          have hlen2 : (sep.drop k).length = sep.length - k := by
            simp
          rw [List.take_append_eq_append_take, ← hlen2, List.take_length,
            Nat.sub_self, List.take_zero, List.append_nil]
        have hkey : sep.drop k = sep.take (sep.length - k) := by
          rw [← htakeB, ← hstar, htakeA]
        exact overlapFreeB_spec sep hov k hkpos hlen hkey
    rw [show (c :: cs) ++ sep ++ r = c :: (cs ++ sep ++ r) from rfl, findSep_cons]
    rw [show c :: (cs ++ sep ++ r) = (c :: cs) ++ sep ++ r from rfl, hnostart]
    simp only [Bool.false_eq_true, if_false]
    rw [ih hx.2]
    rfl

theorem splitSep_cons_of_findSep (sep s p q : PyStr) (hsep : sep ≠ [])
    (h : findSep sep s = some (p, q)) :
    splitSep sep s = p :: splitSep sep q := by
  rw [splitSep, splitSep, if_neg hsep, if_neg hsep]
  have hlen := findSep_length sep hsep s p q h
  have hs : s.length = (s.length - 1) + 1 := by omega
  rw [hs]
  simp only [splitSepF, h]
  rw [splitSepF_congr sep hsep (s.length - 1) q.length q (by omega) (by omega)]

theorem splitSep_joinSep (sep : PyStr) (hsep : sep ≠ [])
    (hov : overlapFreeB sep = true) (p : List PyStr) (hp : p ≠ [])
    (hfree : ∀ x ∈ p, hasSub sep x = false) :
    splitSep sep (joinSep sep p) = p := by
  induction p with
  | nil => exact absurd rfl hp
  | cons x xs ih =>
    cases xs with
    | nil =>
      rw [joinSep]
      exact splitSep_no_sub sep x (hfree x (by simp))
    | cons y ys =>
      rw [joinSep]
      rw [splitSep_cons_of_findSep sep (x ++ sep ++ joinSep sep (y :: ys)) x
        (joinSep sep (y :: ys)) hsep
        (findSep_boundary sep hsep hov x (joinSep sep (y :: ys)) (hfree x (by simp)))]
      rw [ih (by simp) (fun z hz => hfree z (by simp [hz]))]

/-- Embedding of the Python values the blender operates on: `None`, bools,
ints, strings, lists and (insertion-ordered) dicts with string keys. -/
inductive Val where
  | null : Val
  | bool : Bool → Val
  | int : Int → Val
  | str : PyStr → Val
  | list : List Val → Val
  | dict : List (PyStr × Val) → Val

mutual

/-- Structural equality on `Val` (the embedding of Python `==` on these
value types; the Python quirks `True == 1` and int/float mixing are not
modelled, the code under verification compares like-typed values). -/
def Val.beq : Val → Val → Bool
  | .null, .null => true
  | .bool a, .bool c => a == c
  | .int a, .int c => a == c
  | .str a, .str c => a == c
  | .list xs, .list ys => Val.beqL xs ys
  | .dict m, .dict n => Val.beqE m n
  | _, _ => false

/-- Structural equality on lists of values. -/
def Val.beqL : List Val → List Val → Bool
  | [], [] => true
  | x :: xs, y :: ys => Val.beq x y && Val.beqL xs ys
  | _, _ => false

/-- Structural equality on dict entries (order-sensitive; Python dict
`==` is order-insensitive, but the code only uses `==` where this
coincides, and the comparison theorems below use an explicit
order-insensitive equivalence). -/
def Val.beqE : List (PyStr × Val) → List (PyStr × Val) → Bool
  | [], [] => true
  | (k1, v1) :: m, (k2, v2) :: n => k1 == k2 && Val.beq v1 v2 && Val.beqE m n
  | _, _ => false

end

mutual

theorem Val.beq_iff : ∀ a b : Val, Val.beq a b = true ↔ a = b
  | .null, .null => by simp [Val.beq]
  | .bool a, .bool c => by simp [Val.beq]
  | .int a, .int c => by simp [Val.beq]
  | .str a, .str c => by simp [Val.beq]
  | .list xs, .list ys => by
      simp only [Val.beq, Val.list.injEq]
      exact Val.beqL_iff xs ys
  | .dict m, .dict n => by
      simp only [Val.beq, Val.dict.injEq]
      exact Val.beqE_iff m n
  | .null, (.bool x2) => by simp [Val.beq]
  | .null, (.int x2) => by simp [Val.beq]
  | .null, (.str x2) => by simp [Val.beq]
  | .null, (.list x2) => by simp [Val.beq]
  | .null, (.dict x2) => by simp [Val.beq]
  | (.bool x1), .null => by simp [Val.beq]
  | (.bool x1), (.int x2) => by simp [Val.beq]
  | (.bool x1), (.str x2) => by simp [Val.beq]
  | (.bool x1), (.list x2) => by simp [Val.beq]
  | (.bool x1), (.dict x2) => by simp [Val.beq]
  | (.int x1), .null => by simp [Val.beq]
  | (.int x1), (.bool x2) => by simp [Val.beq]
  | (.int x1), (.str x2) => by simp [Val.beq]
  | (.int x1), (.list x2) => by simp [Val.beq]
  | (.int x1), (.dict x2) => by simp [Val.beq]
  | (.str x1), .null => by simp [Val.beq]
  | (.str x1), (.bool x2) => by simp [Val.beq]
  | (.str x1), (.int x2) => by simp [Val.beq]
  | (.str x1), (.list x2) => by simp [Val.beq]
  | (.str x1), (.dict x2) => by simp [Val.beq]
  | (.list x1), .null => by simp [Val.beq]
  | (.list x1), (.bool x2) => by simp [Val.beq]
  | (.list x1), (.int x2) => by simp [Val.beq]
  | (.list x1), (.str x2) => by simp [Val.beq]
  | (.list x1), (.dict x2) => by simp [Val.beq]
  | (.dict x1), .null => by simp [Val.beq]
  | (.dict x1), (.bool x2) => by simp [Val.beq]
  | (.dict x1), (.int x2) => by simp [Val.beq]
  | (.dict x1), (.str x2) => by simp [Val.beq]
  | (.dict x1), (.list x2) => by simp [Val.beq]

theorem Val.beqL_iff : ∀ xs ys : List Val, Val.beqL xs ys = true ↔ xs = ys
  | [], [] => by simp [Val.beqL]
  | [], _ :: _ => by simp [Val.beqL]
  | _ :: _, [] => by simp [Val.beqL]
  | x :: xs, y :: ys => by
      simp only [Val.beqL, Bool.and_eq_true, List.cons.injEq]
      rw [Val.beq_iff x y, Val.beqL_iff xs ys]

theorem Val.beqE_iff : ∀ m n : List (PyStr × Val), Val.beqE m n = true ↔ m = n
  | [], [] => by simp [Val.beqE]
  | [], _ :: _ => by simp [Val.beqE]
  | _ :: _, [] => by simp [Val.beqE]
  | (k1, v1) :: m, (k2, v2) :: n => by
      simp only [Val.beqE, Bool.and_eq_true, List.cons.injEq, Prod.mk.injEq,
        beq_iff_eq]
      rw [Val.beq_iff v1 v2, Val.beqE_iff m n]

end

instance : DecidableEq Val :=
  fun a b => decidable_of_iff (Val.beq a b = true) (Val.beq_iff a b)


/-- Entries of a Python dict, in insertion order. -/
abbrev Entries := List (PyStr × Val)

/-- Python `d[k]` as an `Option` (a `KeyError` is `none`). -/
def lookupV (m : Entries) (k : PyStr) : Option Val :=
  match m with
  | [] => none
  | (k1, v1) :: rest => if k1 = k then some v1 else lookupV rest k

/-- Python `d[k] = v`: replace the value in place if the key exists,
otherwise append the new entry at the end. -/
def updateV (m : Entries) (k : PyStr) (v : Val) : Entries :=
  match m with
  | [] => [(k, v)]
  | (k1, v1) :: rest =>
    if k1 = k then (k1, v) :: rest else (k1, v1) :: updateV rest k v

/-- The keys of a dict, in order. -/
def keysOf (m : Entries) : List PyStr := m.map Prod.fst

/-- The last value bound to `k` in `m`, defaulting to `d`. -/
def lastVal (m : Entries) (k : PyStr) (d : Val) : Val :=
  match m with
  | [] => d
  | (k1, v1) :: rest => lastVal rest k (if k1 = k then v1 else d)

def dedupItemsF : Nat → Entries → Entries
  | 0, _ => []
  | _, [] => []
  | fuel+1, (k, v) :: rest =>
    (k, lastVal rest k v) :: dedupItemsF fuel (rest.filter (fun p => ¬ (p.1 = k)))

/-- Python `dict(items)`: deduplicate by key, keeping the first position
and the last value of each key (with the budget `m.length`, which the
recursion never exhausts: the filtered rest is shorter). -/
def dedupItems (m : Entries) : Entries := dedupItemsF m.length m

/-- Python truthiness (`bool(v)` is false) for the embedded values. -/
def pyFalsy : Val → Bool
  | .null => true
  | .bool b => !b
  | .int n => n == 0
  | .str s => s.isEmpty
  | .list xs => xs.isEmpty
  | .dict m => m.isEmpty

/-- Is the character a single or double quote? -/
def isQuoteChar (c : Char) : Bool := c == dq || c == sq

/-- The substitution pass of `quoted_split`: the regex
`['"][^'"]+['"]` is replaced, leftmost non-overlapping, by its body with
quotes stripped and the separator replaced by `SEPARATOR_QUOTED_SPLIT`. -/
def quotedSubF (sep : PyStr) : Nat → PyStr → PyStr
  | 0, s => s
  | _, [] => []
  | fuel+1, c :: cs =>
    if isQuoteChar c then
      match cs.dropWhile (fun x => !isQuoteChar x) with
      | _ :: rest2 =>
        if (cs.takeWhile (fun x => !isQuoteChar x)).isEmpty then
          c :: quotedSubF sep fuel cs
        else
          pyReplace sep SEPARATOR_QUOTED_SPLIT (cs.takeWhile (fun x => !isQuoteChar x))
            ++ quotedSubF sep fuel rest2
      | [] => c :: quotedSubF sep fuel cs
    else c :: quotedSubF sep fuel cs

/-- The scan of the string by the regex (with the budget `s.length`, which
the scan never exhausts: each step consumes at least one character). -/
def quotedSub (sep : PyStr) (s : PyStr) : PyStr := quotedSubF sep s.length s

/-- `quoted_split` from blender.py: split a string by a separator, but
considering quoted parts; a string with no quote character at all uses a
plain split. -/
def quoted_split (string_ : PyStr) (separator : PyStr) : List PyStr :=
  if !(string_.contains dq) && !(string_.contains sq) then
    splitSep separator string_
  else
    (splitSep separator (quotedSub separator string_)).map
      (fun part => pyReplace SEPARATOR_QUOTED_SPLIT separator part)

/-- Generic association lookup (`d[k]`, first match). -/
def lookupA {α : Type} (m : List (PyStr × α)) (k : PyStr) : Option α :=
  match m with
  | [] => none
  | (k1, v1) :: rest => if k1 = k then some v1 else lookupA rest k

/-- Generic `d[k] = v`: replace in place or append. -/
def updateA {α : Type} (m : List (PyStr × α)) (k : PyStr) (v : α) : List (PyStr × α) :=
  match m with
  | [] => [(k, v)]
  | (k1, v1) :: rest =>
    if k1 = k then (k1, v) :: rest else (k1, v1) :: updateA rest k v

/-- Python `dst.update(src)`: a sequence of `d[k] = v` in order. -/
def updAll (m new : Entries) : Entries :=
  new.foldl (fun acc p => updateA acc p.1 p.2) m

/-- The `_current_lists` auxiliary state of a `DictBlender`. -/
abbrev ListsState := List (PyStr × List Val)

/-- The flat key built for `key` under `parent`: quote the key when it
contains the separator, then prepend the parent path. -/
def newKey (sep : PyStr) (parent key : PyStr) : PyStr :=
  let quoted_key := if hasSub sep key then dq :: (key ++ [dq]) else key
  if parent.isEmpty then quoted_key else parent ++ sep ++ quoted_key

mutual

/-- The items contributed by one `key: value` entry of `DictBlender._flatten`
(`nk` is the already-built flat key): a nested dict contributes
`dict(inner items)` (the recursive `_flatten` call returns a dict); a
list/tuple value under the extend-lists policy extends the previously
accumulated `_current_lists[nk]`; anything else is emitted as-is. -/
def flattenOne (sep : PyStr) (ext : Bool) :
    Val → PyStr → ListsState → Entries × ListsState
  | .dict sub, nk, L =>
    let inner := flattenItems sep ext sub nk L
    (dedupItems inner.1, inner.2)
  | .list xs, nk, L =>
    if ext then
      let nl := ((lookupA L nk).getD []) ++ xs
      ([(nk, .list nl)], updateA L nk nl)
    else ([(nk, .list xs)], L)
  | v, nk, L => ([(nk, v)], L)

/-- The body of `DictBlender._flatten`: walks the entries of `dict_`
(threading `_current_lists`) and returns the accumulated `items` list. -/
def flattenItems (sep : PyStr) (ext : Bool) :
    Entries → PyStr → ListsState → Entries × ListsState
  | [], _, L => ([], L)
  | (key, v) :: rest, parent, L =>
    let here := flattenOne sep ext v (newKey sep parent key) L
    let outer := flattenItems sep ext rest parent here.2
    (here.1 ++ outer.1, outer.2)

end

/-- `DictBlender._flatten`: `dict(items)` of the accumulated items. -/
def flattenD (sep : PyStr) (ext : Bool) (d : Entries) (parent : PyStr)
    (L : ListsState) : Entries × ListsState :=
  let r := flattenItems sep ext d parent L
  (dedupItems r.1, r.2)

/-- The state of a `DictBlender` instance. -/
structure DictBlender where
  currentFlat : Entries
  currentLists : ListsState
  extendLists : Bool
  separator : PyStr
  flattenOnAdd : Bool

/-- `DictBlender.add(other, flatten_on_add=foa)`. -/
def DictBlender.addWith (b : DictBlender) (other : Entries) (foa : Bool) :
    DictBlender :=
  if foa then
    let r := flattenD b.separator b.extendLists other [] b.currentLists
    { b with currentFlat := updAll b.currentFlat r.1, currentLists := r.2 }
  else
    { b with currentFlat := updAll b.currentFlat other }

/-- `DictBlender.add(other)` with the instance default `flatten_on_add`. -/
def DictBlender.add (b : DictBlender) (other : Entries) : DictBlender :=
  b.addWith other b.flattenOnAdd

/-- `DictBlender(dict_, extend_lists=..., separator=..., flatten_on_add=...)`:
start empty, then `add` the initial dict. -/
def DictBlender.make (dict_ : Entries) (extendLists : Bool) (sep : PyStr)
    (foa : Bool) : DictBlender :=
  (DictBlender.mk [] [] extendLists sep foa).addWith dict_ foa

/-- A `DictBlender` with all-default keyword arguments. -/
def DictBlender.makeDefault (dict_ : Entries) : DictBlender :=
  DictBlender.make dict_ true SEPARATOR_FLATTEN true

/-- Lexicographic (code-point) order on Python strings. -/
def ltStr : PyStr → PyStr → Bool
  | [], [] => false
  | [], _ :: _ => true
  | _ :: _, [] => false
  | a :: as, c :: cs => if a = c then ltStr as cs else decide (a < c)

/-- `sorted(dict_.items())`: stable sort of the entries by key (keys of a
Python dict are distinct, so the tuple comparison never reaches the
values). -/
def sortEntries (m : Entries) : Entries :=
  List.insertionSort (fun p q => (!ltStr q.1 p.1) = true) m

/-- One step of `DictBlender._unflatten`: walk `all_keys`, creating empty
nested dicts on `KeyError`, and set the final key.  Reaching a non-dict
value part-way (a `TypeError` in Python) is `none`. -/
def insertPath (m : Entries) (ks : List PyStr) (v : Val) : Option Entries :=
  match ks with
  | [] => none
  | [k] => some (updateA m k v)
  | k :: k2 :: rest =>
    match lookupA m k with
    | none =>
      match insertPath [] (k2 :: rest) v with
      | none => none
      | some sub => some (updateA m k (.dict sub))
    | some (.dict sub) =>
      match insertPath sub (k2 :: rest) v with
      | none => none
      | some sub2 => some (updateA m k (.dict sub2))
    | some _ => none

/-- `DictBlender._unflatten(dict_, sort)`. -/
def unflattenD (sep : PyStr) (dict_ : Entries) (sort : Bool) : Option Entries :=
  (if sort then sortEntries dict_ else dict_).foldlM
    (fun acc p => insertPath acc (quoted_split p.1 sep) p.2) []

/-- `DictBlender.mix(sort=True)`. -/
def DictBlender.mix (b : DictBlender) (sort : Bool) : Option Entries :=
  unflattenD b.separator b.currentFlat sort

/-- `is_scalar` from blender.py: not a dict and not a list/tuple. -/
def isScalar : Val → Bool
  | .list _ => false
  | .dict _ => false
  | _ => true

/-- The newline character. -/
def nlC : Char := Char.ofNat 10

/-- The space character. -/
def spC : Char := Char.ofNat 32

/-- `indent * level` spaces of `json.dumps(..., indent=2)`. -/
def jsonPad (lvl : Nat) : PyStr := List.replicate (2 * lvl) spC

/-- Escaping of one character in a JSON string literal, as `json.dumps`
does within the ASCII range (non-ASCII `ensure_ascii` escaping is not
exercised by the verified properties). -/
def jsonEscapeChar (c : Char) : PyStr :=
  if c = dq then [Char.ofNat 92, dq]
  else if c = Char.ofNat 92 then [Char.ofNat 92, Char.ofNat 92]
  else if c = nlC then [Char.ofNat 92, Char.ofNat 110]
  else if c = Char.ofNat 9 then [Char.ofNat 92, Char.ofNat 116]
  else if c = Char.ofNat 13 then [Char.ofNat 92, Char.ofNat 114]
  else [c]

/-- A JSON string literal. -/
def jsonStr (s : PyStr) : PyStr := dq :: (s.flatMap jsonEscapeChar ++ [dq])

mutual

/-- Modelled from the Python standard library: the text produced by
`json.dumps(obj, sort_keys=True, indent=2)` (which `JsonDoc.load`
delegates to): dict keys sorted, items one per line separated by a comma,
two more spaces of indentation per level.  The recursion budget `fuel` is
instantiated with a bound the recursion never exhausts. -/
def jsonDumpsF : Nat → Val → Nat → PyStr
  | 0, _, _ => []
  | _+1, .null, _ => "null".toList
  | _+1, .bool true, _ => "true".toList
  | _+1, .bool false, _ => "false".toList
  | _+1, .int n, _ => (toString n).toList
  | _+1, .str s, _ => jsonStr s
  | _+1, .list [], _ => "[]".toList
  | fuel+1, .list (x :: xs), lvl =>
    Char.ofNat 91 :: nlC ::
      (joinSep [Char.ofNat 44, nlC] (jsonItemsF fuel (x :: xs) (lvl+1))
        ++ nlC :: (jsonPad lvl ++ [Char.ofNat 93]))
  | _+1, .dict [], _ => [Char.ofNat 123, Char.ofNat 125]
  | fuel+1, .dict (e :: es), lvl =>
    Char.ofNat 123 :: nlC ::
      (joinSep [Char.ofNat 44, nlC] (jsonFieldsF fuel (sortEntries (e :: es)) (lvl+1))
        ++ nlC :: (jsonPad lvl ++ [Char.ofNat 125]))

/-- The rendered items of a JSON array, one string per item. -/
def jsonItemsF : Nat → List Val → Nat → List PyStr
  | 0, _, _ => []
  | _+1, [], _ => []
  | fuel+1, x :: xs, lvl =>
    (jsonPad lvl ++ jsonDumpsF fuel x lvl) :: jsonItemsF fuel xs lvl

/-- The rendered fields of a JSON object, one string per field. -/
def jsonFieldsF : Nat → Entries → Nat → List PyStr
  | 0, _, _ => []
  | _+1, [], _ => []
  | fuel+1, (k, v) :: es, lvl =>
    (jsonPad lvl ++ (jsonStr k ++ (Char.ofNat 58 :: spC :: jsonDumpsF fuel v lvl)))
      :: jsonFieldsF fuel es lvl

end

mutual

/-- An executable size measure on values, used as a recursion budget. -/
def Val.weight : Val → Nat
  | .list xs => Val.weightL xs + 1
  | .dict m => Val.weightE m + 1
  | _ => 1

/-- Size measure on lists of values. -/
def Val.weightL : List Val → Nat
  | [] => 1
  | x :: xs => Val.weight x + Val.weightL xs + 1

/-- Size measure on dict entries. -/
def Val.weightE : Entries → Nat
  | [] => 1
  | (_, v) :: m => Val.weight v + Val.weightE m + 1

end

/-- `json.dumps(v, sort_keys=True, indent=2)` with a sufficient budget. -/
def jsonDumps (v : Val) : PyStr := jsonDumpsF (Val.weight v) v 0

/-- `JsonDoc.load` for a document constructed from an in-memory object
(`path` and `string` are both `None`): the memoized `reformatted` string is
`json.dumps(self._object, sort_keys=True, indent=2) + "\n"`. -/
def jsonReformatted (obj : Val) : PyStr := jsonDumps obj ++ [nlC]

/-- The JMESPath expression forms constructed by blender.py: a plain
field `nested_key`, a nested projection `parent[].nested_key`, the same
prefixed with `[].` for searching a list, and the filter
`parent[?nested_key=='literal']`.  Their semantics below are modelled
from the jmespath library. -/
inductive JmesExpr where
  | field : PyStr → JmesExpr
  | parentProj : PyStr → PyStr → JmesExpr
  | listProj : JmesExpr → JmesExpr
  | filterEq : PyStr → PyStr → PyStr → JmesExpr

/-- Field access: `null` on a non-dict or a missing key. -/
def jmesField (k : PyStr) (v : Val) : Val :=
  match v with
  | .dict m => (lookupA m k).getD .null
  | _ => .null

/-- The JMESPath flatten operator `[]`: `null` on a non-list, otherwise
splice one level of nested lists. -/
def jmesFlatten : Val → Val
  | .list xs => .list (xs.flatMap fun x =>
      match x with
      | .list ys => ys
      | y => [y])
  | _ => .null

/-- A projection: map the function over the elements and drop `null`
results; `null` when the subject is not a list. -/
def jmesProject (f : Val → Val) (v : Val) : Val :=
  match v with
  | .list xs => .list ((xs.map f).filter fun r => !(r == Val.null))
  | _ => .null

/-- Evaluation of the expression forms above (modelled from the jmespath
library; chained projections are evaluated as flatten-then-project). -/
def jmesEval : JmesExpr → Val → Val
  | .field k, v => jmesField k v
  | .parentProj p k, v => jmesProject (jmesField k) (jmesFlatten (jmesField p v))
  | .listProj e, v =>
    match e with
    | .field k => jmesProject (jmesField k) (jmesFlatten v)
    | .parentProj p k =>
      jmesProject (jmesField k)
        (jmesFlatten (jmesProject (jmesField p) (jmesFlatten v)))
    | e2 => jmesEval e2 (jmesFlatten v)
  | .filterEq p k lit, v =>
    match jmesField p v with
    | .list xs => .list (xs.filter fun e => jmesField k e == Val.str lit)
    | _ => .null

/-- `search_json(json_data, jmespath_expression, default)`: evaluate and
return `rv or default`, i.e. the default whenever the result is falsy. -/
def search_json (json_data : Val) (expr : JmesExpr) (default : Val) : Val :=
  let rv := jmesEval expr json_data
  if pyFalsy rv then default else rv

/-- C4: with the extend-lists policy enabled, adding a document whose
flattened key collides with a key added earlier appends a sequence value
after the previously accumulated elements for that key (order preserved,
duplicates kept), while a non-sequence value replaces the old one. -/
theorem C4_extend_lists_policy (sep k : PyStr) (l1 l2 : List Val) (v : Val)
    (hk : hasSub sep k = false) (hv : isScalar v = true) :
    lookupA (((DictBlender.make [(k, .list l1)] true sep true).add
        [(k, .list l2)]).currentFlat) k = some (.list (l1 ++ l2))
    ∧ lookupA (((DictBlender.make [(k, .list l1)] true sep true).add
        [(k, v)]).currentFlat) k = some v := by
  constructor
  · simp [DictBlender.make, DictBlender.add, DictBlender.addWith, flattenD,
      flattenItems, flattenOne, newKey, hk, lookupA, updateA, updAll,
      dedupItems, dedupItemsF, lastVal]
  · cases v <;> simp_all [DictBlender.make, DictBlender.add,
      DictBlender.addWith, flattenD, flattenItems, flattenOne, newKey,
      isScalar, lookupA, updateA, updAll, dedupItems, dedupItemsF, lastVal]

/-- Witness for C4 at a concrete input: key `"k"`, first list `[1]`,
second list `[2, 1]` (the duplicate `1` is kept), scalar `7`. -/
theorem C4_extend_lists_policy_witness :
    hasSub SEPARATOR_FLATTEN "k".toList = false
    ∧ isScalar (.int 7) = true
    ∧ (lookupA (((DictBlender.make [("k".toList, .list [.int 1])] true
          SEPARATOR_FLATTEN true).add
        [("k".toList, .list [.int 2, .int 1])]).currentFlat) "k".toList
        = some (.list ([.int 1] ++ [.int 2, .int 1]))
      ∧ lookupA (((DictBlender.make [("k".toList, .list [.int 1])] true
          SEPARATOR_FLATTEN true).add
        [("k".toList, .int 7)]).currentFlat) "k".toList = some (.int 7)) :=
  ⟨by decide, by decide,
    C4_extend_lists_policy SEPARATOR_FLATTEN "k".toList [.int 1]
      [.int 2, .int 1] (.int 7) (by decide) (by decide)⟩

/-- C8: flattening the path `["a.b", "c"]` with the dot separator (the
segment containing the separator is wrapped in double quotes before
joining, as `_flatten` does for the nested dict `("a.b" : ("c" : 1))`)
produces the flat key `"a.b".c`, and `quoted_split` recovers
`["a.b", "c"]` unchanged. -/
theorem C8_quoted_key_roundtrip :
    (flattenD DOT true [("a.b".toList, .dict [("c".toList, .int 1)])] [] []).1
      = [("\"a.b\".c".toList, .int 1)]
    ∧ quoted_split "\"a.b\".c".toList DOT = ["a.b".toList, "c".toList] := by
  decide

/-- C9: for the object with entries `b: 1, a: 2` (in that insertion
order), the reformatted JSON document is exactly the key-sorted,
2-space-indented text with a single trailing newline. -/
theorem C9_json_canonicalization :
    jsonReformatted (.dict [("b".toList, .int 1), ("a".toList, .int 2)])
      = "\x7b\n  \"a\": 2,\n  \"b\": 1\n\x7d\n".toList := by decide

/-- C10: on the input where key `a` holds the falsy value `0` (and on one
where it holds `[]`), the JMESPath query matches the existing value, yet
`search_json` returns the supplied default — the same output as for an
input where the path is missing entirely. -/
theorem C10_falsy_matches_return_default :
    jmesEval (.field "a".toList) (.dict [("a".toList, .int 0)]) = .int 0
    ∧ search_json (.dict [("a".toList, .int 0)]) (.field "a".toList) (.int 99)
        = .int 99
    ∧ search_json (.dict [("a".toList, .list [])]) (.field "a".toList) (.int 99)
        = .int 99
    ∧ search_json (.dict []) (.field "a".toList) (.int 99) = .int 99 := by
  decide

/-- A component of a dictdiffer change path: a list index or a dict key. -/
inductive PathKey where
  | idx : Nat → PathKey
  | fld : PyStr → PathKey
deriving DecidableEq

/-- A dictdiffer change operation (`change`, `add` or `remove`). -/
inductive DOp where
  | change : List PathKey → Val → DOp
  | add : List PathKey → List (PathKey × Val) → DOp
  | remove : List PathKey → List (PathKey × Val) → DOp
deriving DecidableEq

/-- Is the operation a `remove`? -/
def DOp.isRemove : DOp → Bool
  | .remove _ _ => true
  | _ => false

mutual

/-- Modelled from the dictdiffer library (an external dependency used by
`compare_lists_with_dictdiffer`): `dictdiffer.diff(first, second)`
restricted to the value types of `Val` (no sets; ints compare exactly —
the numeric tolerance only affects floats; the Python conflations
`True == 1` and dotted-path joining of keys containing a dot are not
exercised here).  For two dicts it recurses over the key intersection in
the first dict's order and then emits one `add`/`remove` op; for two
lists it recurses index-wise over the common prefix and then emits
`add`/`remove` ops for the tail; otherwise it emits a `change` when the
values differ.  The budget `fuel` is never exhausted at the call sites. -/
def diffF : Nat → Val → Val → List PathKey → List DOp
  | 0, _, _, _ => []
  | fuel+1, .dict m1, .dict m2, node =>
    let inter := (keysOf m1).filter (fun k => (lookupA m2 k).isSome)
    let added := m2.filter (fun p => (lookupA m1 p.1).isNone)
    let removed := m1.filter (fun p => (lookupA m2 p.1).isNone)
    (inter.flatMap fun k =>
      diffF fuel ((lookupA m1 k).getD .null) ((lookupA m2 k).getD .null)
        (node ++ [.fld k]))
    ++ (if added.isEmpty then []
        else [.add node (added.map fun p => (.fld p.1, p.2))])
    ++ (if removed.isEmpty then []
        else [.remove node (removed.map fun p => (.fld p.1, p.2))])
  | fuel+1, .list xs, .list ys, node =>
    let n := min xs.length ys.length
    (diffPairsF fuel (xs.take n) (ys.take n) node 0)
    ++ (if ys.length ≤ xs.length then []
        else [.add node ((ys.drop n).enum.map fun p => (.idx (p.1 + n), p.2))])
    ++ (if xs.length ≤ ys.length then []
        else [.remove node (((xs.drop n).enum.map
          fun p => ((.idx (p.1 + n) : PathKey), p.2)).reverse)])
  | _+1, a, b, node =>
    if a == b then [] else [.change node b]

/-- Index-wise recursion over the common prefix of two lists. -/
def diffPairsF : Nat → List Val → List Val → List PathKey → Nat → List DOp
  | 0, _, _, _, _ => []
  | _+1, [], _, _, _ => []
  | _+1, _, [], _, _ => []
  | fuel+1, x :: xs, y :: ys, node, i =>
    diffF fuel x y (node ++ [.idx i]) ++ diffPairsF fuel xs ys node (i+1)

end

/-- Errors raised while patching: a `KeyError` (caught by
`compare_lists_with_dictdiffer`) or any other exception. -/
inductive PErr where
  | keyErr : PErr
  | otherErr : PErr
deriving DecidableEq

/-- Try to use a path component as a list index, as dictdiffer's
`dot_lookup` does (`int(key)` when the subject is a list). -/
def pathKeyToIdx : PathKey → Option Nat
  | .idx i => some i
  | .fld ds =>
    if ds ≠ [] && ds.all (fun c => c.isDigit) then
      some (ds.foldl (fun n c => 10 * n + (c.toNat - 48)) 0)
    else none

/-- Python `list.insert(i, v)` (the position is clamped to the length). -/
def listInsert (i : Nat) (v : Val) (xs : List Val) : List Val :=
  xs.take i ++ v :: xs.drop i

/-- Subscript during `dot_lookup` navigation below the patch root. -/
def valSubscript (w : Val) (k : PathKey) : Except PErr Val :=
  match w with
  | .dict m =>
    match k with
    | .fld ks =>
      match lookupA m ks with
      | some v => .ok v
      | none => .error .keyErr
    | .idx _ => .error .keyErr
  | .list xs =>
    match pathKeyToIdx k with
    | some i => if h : i < xs.length then .ok (xs.get ⟨i, h⟩) else .error .otherErr
    | none => .error .otherErr
  | _ => .error .otherErr

/-- Set `w[k] = v` below the patch root (dict setitem / list index
assignment). -/
def valSetKey (w : Val) (k : PathKey) (v : Val) : Except PErr Val :=
  match w with
  | .dict m =>
    match k with
    | .fld ks => .ok (.dict (updateA m ks v))
    | .idx _ => .error .otherErr
  | .list xs =>
    match pathKeyToIdx k with
    | some i =>
      if i < xs.length then .ok (.list (xs.set i v)) else .error .otherErr
    | none => .error .otherErr
  | _ => .error .otherErr

/-- `list.insert` / dict setitem of one `add` item below the root. -/
def valAddKey (w : Val) (k : PathKey) (v : Val) : Except PErr Val :=
  match w with
  | .list xs =>
    match pathKeyToIdx k with
    | some i => .ok (.list (listInsert i v xs))
    | none => .error .otherErr
  | .dict m =>
    match k with
    | .fld ks => .ok (.dict (updateA m ks v))
    | .idx _ => .error .otherErr
  | _ => .error .otherErr

/-- Navigate to `keys` below a value and apply `f` there. -/
def valModPath (w : Val) (keys : List PathKey) (f : Val → Except PErr Val) :
    Except PErr Val :=
  match keys with
  | [] => f w
  | k :: rest =>
    match valSubscript w k with
    | .error e => .error e
    | .ok sub =>
      match valModPath sub rest f with
      | .error e => .error e
      | .ok sub2 =>
        match valSetKey w k sub2 with
        | .error e => .error e
        | .ok w2 => .ok w2

/-- The root being patched: the fresh Python dict `{}` passed to
`dictdiffer.patch` by `compare_lists_with_dictdiffer`, whose keys may be
list indices or strings. -/
abbrev PatchRoot := List (PathKey × Val)

/-- Association update on the patch root. -/
def updateRoot (m : PatchRoot) (k : PathKey) (v : Val) : PatchRoot :=
  match m with
  | [] => [(k, v)]
  | (k1, v1) :: rest =>
    if k1 = k then (k1, v) :: rest else (k1, v1) :: updateRoot rest k v

/-- dictdiffer's `dot_notation`: a path whose components are all strings
travels as a dotted string and is re-split on dots. -/
def dottedNorm (node : List PathKey) : List PathKey :=
  let isFld : PathKey → Bool := fun k => match k with | .fld _ => true | .idx _ => false
  let toFld : PathKey → PyStr := fun k => match k with | .fld s => s | .idx _ => []
  if node.all isFld then
    let dotted := joinSep DOT (node.map toFld)
    if dotted.isEmpty then [.fld []] else (splitSep DOT dotted).map .fld
  else node

/-- Association lookup on the patch root. -/
def lookupRoot (m : PatchRoot) (k : PathKey) : Option Val :=
  match m with
  | [] => none
  | (k1, v1) :: rest => if k1 = k then some v1 else lookupRoot rest k

/-- Navigate `ks` below a value (all but the last component) and set the
last component to `v`, as dictdiffer's `change` patcher does. -/
def valChangePath (w : Val) (ks : List PathKey) (v : Val) : Except PErr Val :=
  match ks with
  | [] => .error .otherErr
  | [last] => valSetKey w last v
  | k :: k2 :: rest =>
    match valSubscript w k with
    | .error e => .error e
    | .ok sub =>
      match valChangePath sub (k2 :: rest) v with
      | .error e => .error e
      | .ok sub2 => valSetKey w k sub2

/-- Apply the `add` items in order at a value. -/
def valAddItems (w : Val) (items : List (PathKey × Val)) : Except PErr Val :=
  match items with
  | [] => .ok w
  | (k, v) :: rest =>
    match valAddKey w k v with
    | .error e => .error e
    | .ok w2 => valAddItems w2 rest

/-- Navigate `ks` below a value and apply the `add` items there. -/
def valAddPath (w : Val) (ks : List PathKey) (items : List (PathKey × Val)) :
    Except PErr Val :=
  match ks with
  | [] => valAddItems w items
  | k :: rest =>
    match valSubscript w k with
    | .error e => .error e
    | .ok sub =>
      match valAddPath sub rest items with
      | .error e => .error e
      | .ok sub2 => valSetKey w k sub2

/-- The effective path of a `change` op (dotted-string round trip). -/
def changeNormKeys (node : List PathKey) : List PathKey :=
  dottedNorm node

/-- The effective path of an `add` op: `none` means the root itself
(`dot_lookup` returns the destination for an empty dotted path). -/
def addNormKeys (node : List PathKey) : Option (List PathKey) :=
  let isFld : PathKey → Bool := fun k => match k with | .fld _ => true | .idx _ => false
  let toFld : PathKey → PyStr := fun k => match k with | .fld s => s | .idx _ => []
  if node.all isFld then
    let dotted := joinSep DOT (node.map toFld)
    if dotted.isEmpty then none else some ((splitSep DOT dotted).map .fld)
  else some node

/-- One step of `dictdiffer.patch` on the fresh `{}` destination
(`remove` ops are filtered out before patching and never reached). -/
def patchStep (root : PatchRoot) : DOp → Except PErr PatchRoot
  | .change node v =>
    match changeNormKeys node with
    | [] => .error .otherErr
    | [last] => .ok (updateRoot root last v)
    | k :: k2 :: rest =>
      match lookupRoot root k with
      | none => .error .keyErr
      | some w =>
        match valChangePath w (k2 :: rest) v with
        | .error e => .error e
        | .ok w2 => .ok (updateRoot root k w2)
  | .add node items =>
    match addNormKeys node with
    | none => .ok (items.foldl (fun r p => updateRoot r p.1 p.2) root)
    | some [] => .error .otherErr
    | some (k :: rest) =>
      match lookupRoot root k with
      | none => .error .keyErr
      | some w =>
        match valAddPath w rest items with
        | .error e => .error e
        | .ok w2 => .ok (updateRoot root k w2)
  | .remove _ _ => .error .otherErr

/-- `compare_lists_with_dictdiffer(actual, expected)`: keep the non-remove
ops; when there are none, return `[]`; otherwise patch them onto a fresh
`(empty dict)` and return its values, falling back to `expected` on a
`KeyError` (any other exception propagates: `none`). -/
def compare_lists_with_dictdiffer (actual : Val) (expected : List Val) :
    Option (List Val) :=
  let ops := (diffF (Val.weight actual + Val.weightL expected) actual
      (.list expected) []).filter (fun op => !op.isRemove)
  if ops.isEmpty then some []
  else
    match ops.foldlM patchStep ([] : PatchRoot) with
    | .ok root => some (root.map Prod.snd)
    | .error .keyErr => some expected
    | .error .otherErr => none

/-- Python iteration over a value (`for key in rv`): lists yield their
elements, strings their characters as 1-character strings, dicts their
keys; iterating anything else raises `TypeError`. -/
def iterVal : Val → Option (List Val)
  | .list xs => some xs
  | .str s => some (s.map (fun c => Val.str [c]))
  | .dict m => some (m.map (fun p => Val.str p.1))
  | _ => none

/-- `more_itertools.always_iterable` (strings count as single items,
`None` yields nothing, other iterables are iterated, anything else is a
single item). -/
def alwaysIterable : Val → List Val
  | .null => []
  | .list xs => xs
  | .dict m => m.map (fun p => Val.str p.1)
  | v => [v]

/-- Python `str()` of a unique-key value as interpolated into the filter
expression f-string (only strings and numbers occur in the flows
verified here; the `repr` of containers is not modelled). -/
def pyStrOf : Val → PyStr
  | .str s => s
  | .int n => (toString n).toList
  | .bool true => "True".toList
  | .bool false => "False".toList
  | .null => "None".toList
  | .list _ => []
  | .dict _ => []

/-- Lookup in the `actual_indexes` comprehension result (a Python dict
keyed by the unique-key values). -/
def lookupVK (m : List (Val × Nat)) (k : Val) : Option Nat :=
  match m with
  | [] => none
  | (k1, v1) :: rest => if k1 = k then some v1 else lookupVK rest k

/-- Update in the `actual_indexes` dict (later entries win). -/
def updateVK (m : List (Val × Nat)) (k : Val) (v : Nat) : List (Val × Nat) :=
  match m with
  | [] => [(k, v)]
  | (k1, v1) :: rest =>
    if k1 = k then (k1, v) :: rest else (k1, v1) :: updateVK rest k v

/-- `actual_indexes = (key: index for index, element in enumerate(actual_list)
for key in search_json(element, jmes_search_key, []))` — the dict
comprehension, with Python's iteration semantics over the per-element
search result (a plain string iterates as its characters). -/
def buildIndexes (jkey : JmesExpr) (actual_list : List Val) :
    Option (List (Val × Nat)) :=
  actual_list.enum.foldlM
    (fun acc p =>
      match iterVal (search_json p.2 jkey (.list [])) with
      | none => none
      | some ks => some (ks.foldl (fun m k => updateVK m k p.1) acc))
    []

/-- The result of `search_element_by_unique_key`, with the post-call
contents of the two input lists (the function mutates matched elements of
`actual_list` through a shallow copy, and matched elements of
`expected_list` directly). -/
structure SearchResult where
  display : List Val
  replace : List Val
  actualAfter : List Val
  expectedAfter : List Val
deriving DecidableEq

/-- The loop state of `search_element_by_unique_key`: the two lists as
mutable arrays, the `display` list as expected-indices (it only ever
holds references to expected elements) and the `replace` list as
references (`Sum.inl i` = the actual element at `i` — after the splice a
`new_block` is structurally equal to the mutated actual element it was
shallow-copied from, so the reference stays valid — `Sum.inr j` = the
expected element at `j`). -/
structure SEState where
  actualArr : List Val
  expectedArr : List Val
  display : List Nat
  replaceRefs : List (Sum Nat Nat)

/-- The body of the inner `for expected_key in always_iterable(...)` loop
for one key of one expected element (`ei` its index). -/
def seInnerStep (jkeyFilter : PyStr → JmesExpr) (actualKeys : List Val)
    (indexes : List (Val × Nat)) (ei : Nat) (st : SEState) (k : Val) :
    Option SEState :=
  if ¬ (actualKeys.contains k) then
    some { st with display := st.display ++ [ei],
                   replaceRefs := st.replaceRefs ++ [Sum.inr ei] }
  else
    match lookupVK indexes k with
    | none => some st
    | some idx =>
      let jmes_nested := jkeyFilter (pyStrOf k)
      let actual_nested := search_json (st.actualArr.getD idx .null)
        jmes_nested (.list [])
      let element := st.expectedArr.getD ei .null
      let expected_nested := search_json element jmes_nested (.list [.dict []])
      let anl := match actual_nested with | .list xs => xs | _ => []
      let enl := match expected_nested with | .list xs => xs | _ => []
      match compare_lists_with_dictdiffer (.list anl) enl with
      | none => none
      | some [] => some st
      | some (d0 :: drest) =>
        -- element[parent_key] = diff_nested  (the element must be a dict)
        match element with
        | .dict em =>
          let parentK := match jmes_nested with
            | .filterEq p _ _ => p
            | _ => []
          let st1 := { st with
            expectedArr := st.expectedArr.set ei
              (.dict (updateA em parentK (.list (d0 :: drest)))),
            display := st.display ++ [ei] }
          -- new_block = actual_list[index].copy(); splice at the first
          -- position equal to actual_nested[0]; replace[index] = new_block
          match st1.actualArr.getD idx .null with
          | .dict am =>
            match lookupA am parentK with
            | none => none
            | some (.list ps) =>
              if ps.isEmpty then
                some { st1 with replaceRefs := st1.replaceRefs.set idx (Sum.inl idx) }
              else
                match anl with
                | [] => none
                | a0 :: _ =>
                  let ps2 := match ps.findIdx? (fun obj => obj == a0) with
                    | some j => ps.set j d0
                    | none => ps
                  some { st1 with
                    actualArr := st1.actualArr.set idx
                      (.dict (updateA am parentK (.list ps2))),
                    replaceRefs := st1.replaceRefs.set idx (Sum.inl idx) }
            | some w =>
              match iterVal w with
              | none => none
              | some [] =>
                some { st1 with replaceRefs := st1.replaceRefs.set idx (Sum.inl idx) }
              | some (_ :: _) => none
          | _ => none
        | _ => none

/-- `search_element_by_unique_key(actual_list, expected_list, nested_key,
parent_key)`.  Returns `none` when the Python call raises. -/
def search_element_by_unique_key (actual_list : Val)
    (expected_list : List Val) (nested_key parent_key : PyStr) :
    Option SearchResult :=
  let jkey : JmesExpr :=
    if parent_key.isEmpty then .field nested_key
    else .parentProj parent_key nested_key
  let actual_keys := search_json actual_list (.listProj jkey) (.list [])
  if pyFalsy actual_keys then
    -- no actual keys: insert the whole expected block
    match actual_list with
    | .list as =>
      some ⟨expected_list, as ++ expected_list, as, expected_list⟩
    | _ => none
  else
    match actual_list with
    | .list as =>
      let actualKeys := match actual_keys with | .list ks => ks | _ => []
      match buildIndexes jkey as with
      | none => none
      | some indexes =>
        let jkeyFilter : PyStr → JmesExpr :=
          fun lit => .filterEq parent_key nested_key lit
        let init : SEState :=
          ⟨as, expected_list, [], (List.range as.length).map Sum.inl⟩
        let final := (List.range expected_list.length).foldlM
          (fun st ei =>
            let element := st.expectedArr.getD ei .null
            let expected_keys := search_json element jkey .null
            if pyFalsy expected_keys then
              some { st with display := st.display ++ [ei],
                             replaceRefs := st.replaceRefs ++ [Sum.inr ei] }
            else
              (alwaysIterable expected_keys).foldlM
                (seInnerStep jkeyFilter actualKeys indexes ei) st)
          init
        match final with
        | none => none
        | some st =>
          some ⟨st.display.map (fun j => st.expectedArr.getD j .null),
                st.replaceRefs.map (fun r =>
                  match r with
                  | Sum.inl i => st.actualArr.getD i .null
                  | Sum.inr j => st.expectedArr.getD j .null),
                st.actualArr, st.expectedArr⟩
    | _ => none

/-- The `Comparison` object: the two flattened mappings (computed with
the dot separator by `DictBlender(actual, separator=DOT)`) and the three
derived buckets, `(empty)` until `compare_with_flatten` fills them. -/
structure Comparison where
  flatActual : Entries
  flatExpected : Entries
  missingDict : Entries
  diffDict : Entries
  replaceDict : Entries
deriving DecidableEq

/-- `Comparison.has_changes`: true iff any of the three buckets is
non-empty (each `missing`/`diff`/`replace` property is `None` exactly
when its dict is empty). -/
def Comparison.hasChanges (c : Comparison) : Bool :=
  !c.missingDict.isEmpty || !c.diffDict.isEmpty || !c.replaceDict.isEmpty

/-- The fast-path test `flat_expected.items() <= flat_actual.items()`:
every key/value pair of the expected flat dict occurs in the actual flat
dict (item views of dicts compare as sets of pairs; keys are unique, so
pair membership is lookup). -/
def itemsLE (e a : Entries) : Bool :=
  e.all fun p => decide (lookupA a p.1 = some p.2)

/-- `set_key_if_not_empty(dict_, key, value)`: update the dict unless the
value is falsy. -/
def setKeyIfNotEmpty (d : Entries) (k : PyStr) (v : Val) : Entries :=
  if pyFalsy v then d else updateA d k v

/-- The mutable state of the `compare_with_flatten` loop: the two flat
dicts (whose list values the unique-key reconciliation mutates through
aliasing) and the three buckets being built. -/
structure CmpState where
  flatA : Entries
  flatE : Entries
  missing : Entries
  diff : Entries
  replace : Entries

/-- One iteration of the `compare_with_flatten` loop over an entry
`(key, expected_value)` of the flattened expected dict: an absent key
goes to `missing`; a list value goes through the unique-key
reconciliation when one is configured for the key (the reconciliation
mutates the list values held by both flat dicts through aliasing) and
through `compare_lists_with_dictdiffer` otherwise; any other unequal
value goes to `diff`. -/
def cmpStep (unique_keys : List (PyStr × (PyStr × PyStr))) (st : CmpState)
    (p : PyStr × Val) : Option CmpState :=
  match lookupA st.flatA p.1 with
  | none => some { st with missing := updateA st.missing p.1 p.2 }
  | some actual =>
    match p.2 with
    | .list evs =>
      let nkpk := (lookupA unique_keys p.1).getD ([], [])
      if nkpk.1.isEmpty then
        match compare_lists_with_dictdiffer actual evs with
        | none => none
        | some diffd =>
          some { st with diff := setKeyIfNotEmpty st.diff p.1 (.list diffd) }
      else
        match search_element_by_unique_key actual evs nkpk.1 nkpk.2 with
        | none => none
        | some res =>
          let st1 := { st with
            flatA := updateA st.flatA p.1 (.list res.actualAfter),
            flatE := updateA st.flatE p.1 (.list res.expectedAfter) }
          if res.display.isEmpty then some st1
          else some { st1 with
            missing := setKeyIfNotEmpty st1.missing p.1 (.list res.display),
            replace := setKeyIfNotEmpty st1.replace p.1 (.list res.replace) }
    | ev =>
      if ev = actual then some st
      else some { st with diff := setKeyIfNotEmpty st.diff p.1 ev }

/-- `BaseDoc.compare_with_flatten(expected, unique_keys)` on a document
whose object is `actual`: flatten both sides with the dot separator,
return an empty comparison when every expected flat item already occurs
in the actual flat dict, otherwise classify every expected flat entry and
unflatten the three buckets (each with a fresh
`DictBlender(separator=DOT, flatten_on_add=False)`, sorted). -/
def compare_with_flatten (actual expected : Entries)
    (unique_keys : List (PyStr × (PyStr × PyStr))) : Option Comparison :=
  let flatA := (DictBlender.make actual true DOT true).currentFlat
  let flatE := (DictBlender.make expected true DOT true).currentFlat
  if itemsLE flatE flatA then
    some ⟨flatA, flatE, [], [], []⟩
  else
    match flatE.foldlM (cmpStep unique_keys) ⟨flatA, flatE, [], [], []⟩ with
    | none => none
    | some st =>
      match unflattenD DOT (updAll [] st.missing) true,
          unflattenD DOT (updAll [] st.diff) true,
          unflattenD DOT (updAll [] st.replace) true with
      | some m, some d, some r => some ⟨st.flatA, st.flatE, m, d, r⟩
      | _, _, _ => none

/-- C2: if every flattened key/value entry of `expected` is present with
an equal value in the flattened `actual` (the item-subset test of the
fast path), `compare_with_flatten` returns a comparison whose three
buckets are all empty and whose `has_changes` is false. -/
theorem C2_comparator_soundness (actual expected : Entries)
    (uk : List (PyStr × (PyStr × PyStr)))
    (h : itemsLE (DictBlender.make expected true DOT true).currentFlat
        (DictBlender.make actual true DOT true).currentFlat = true) :
    compare_with_flatten actual expected uk
      = some ⟨(DictBlender.make actual true DOT true).currentFlat,
          (DictBlender.make expected true DOT true).currentFlat, [], [], []⟩
    ∧ (⟨(DictBlender.make actual true DOT true).currentFlat,
          (DictBlender.make expected true DOT true).currentFlat,
          [], [], []⟩ : Comparison).hasChanges = false := by
  refine ⟨?_, by simp [Comparison.hasChanges]⟩
  rw [compare_with_flatten]
  simp only [h, if_true]

/-- Witness for C2 at the concrete input `actual = expected = (a: 1)`. -/
theorem C2_comparator_soundness_witness :
    itemsLE (DictBlender.make [("a".toList, .int 1)] true DOT true).currentFlat
        (DictBlender.make [("a".toList, .int 1)] true DOT true).currentFlat = true
    ∧ (compare_with_flatten [("a".toList, .int 1)] [("a".toList, .int 1)] []
        = some ⟨(DictBlender.make [("a".toList, .int 1)] true DOT true).currentFlat,
            (DictBlender.make [("a".toList, .int 1)] true DOT true).currentFlat,
            [], [], []⟩
      ∧ (⟨(DictBlender.make [("a".toList, .int 1)] true DOT true).currentFlat,
            (DictBlender.make [("a".toList, .int 1)] true DOT true).currentFlat,
            [], [], []⟩ : Comparison).hasChanges = false) :=
  ⟨by decide, C2_comparator_soundness [("a".toList, .int 1)]
    [("a".toList, .int 1)] [] (by decide)⟩

/-- C5 counterexample: `search_element_by_unique_key` is not idempotent.
With `actual = []` and one expected element that lacks the unique key
`name`, the first call merges the element in; running the reconciliation
again on the returned merged list with the same expected list reports the
element as new again and appends a duplicate, so the second merged list
differs from the first. -/
theorem C5_counterexample :
    search_element_by_unique_key (.list []) [.dict [("x".toList, .int 1)]]
        "name".toList []
      = some ⟨[.dict [("x".toList, .int 1)]], [.dict [("x".toList, .int 1)]],
          [], [.dict [("x".toList, .int 1)]]⟩
    ∧ search_element_by_unique_key (.list [.dict [("x".toList, .int 1)]])
        [.dict [("x".toList, .int 1)]] "name".toList []
      = some ⟨[.dict [("x".toList, .int 1)]],
          [.dict [("x".toList, .int 1)], .dict [("x".toList, .int 1)]],
          [.dict [("x".toList, .int 1)]], [.dict [("x".toList, .int 1)]]⟩
    ∧ ([Val.dict [("x".toList, .int 1)], .dict [("x".toList, .int 1)]]
        ≠ [Val.dict [("x".toList, .int 1)]])
    ∧ ([Val.dict [("x".toList, .int 1)]] ≠ ([] : List Val)) := by decide

/-- C6: the splice is not confined to the returned merged list.  On this
input (one actual element whose hook `a` has `x = 1`, one expected
element with `x = 2`), the call succeeds and splices the nested diff, but
`new_block = actual_list[index].copy()` is a shallow copy, so the splice
through `new_block[parent_key]` also rewrites the `hooks` list of the
input actual element: after the call the actual list differs from what
was passed in, and equals the merged list. -/
theorem C6_shallow_copy_mutates_input :
    search_element_by_unique_key
        (.list [.dict [("repo".toList, .str "r".toList),
          ("hooks".toList, .list [.dict [("id".toList, .str "a".toList),
            ("x".toList, .int 1)]])]])
        [.dict [("repo".toList, .str "r".toList),
          ("hooks".toList, .list [.dict [("id".toList, .str "a".toList),
            ("x".toList, .int 2)]])]]
        "id".toList "hooks".toList
      = some ⟨[.dict [("repo".toList, .str "r".toList),
            ("hooks".toList, .list [.dict [("id".toList, .str "a".toList),
              ("x".toList, .int 2)]])]],
          [.dict [("repo".toList, .str "r".toList),
            ("hooks".toList, .list [.dict [("id".toList, .str "a".toList),
              ("x".toList, .int 2)]])]],
          [.dict [("repo".toList, .str "r".toList),
            ("hooks".toList, .list [.dict [("id".toList, .str "a".toList),
              ("x".toList, .int 2)]])]],
          [.dict [("repo".toList, .str "r".toList),
            ("hooks".toList, .list [.dict [("id".toList, .str "a".toList),
              ("x".toList, .int 2)]])]]⟩
    ∧ ([Val.dict [("repo".toList, .str "r".toList),
          ("hooks".toList, .list [.dict [("id".toList, .str "a".toList),
            ("x".toList, .int 2)]])]]
        ≠ [Val.dict [("repo".toList, .str "r".toList),
          ("hooks".toList, .list [.dict [("id".toList, .str "a".toList),
            ("x".toList, .int 1)]])]]) := by decide

theorem foldlM_option_preserve {σ α : Type} (f : σ → α → Option σ)
    (P : σ → Prop) (hf : ∀ st a st', f st a = some st' → P st → P st') :
    ∀ (l : List α) st st', l.foldlM f st = some st' → P st → P st' := by
  intro l
  induction l with
  | nil =>
    intro st st' h hp
    simp only [List.foldlM_nil, Option.pure_def, Option.some.injEq] at h
    exact h ▸ hp
  | cons a as ih =>
    intro st st' h hp
    simp only [List.foldlM_cons, Option.bind_eq_bind] at h
    cases hfa : f st a with
    | none => rw [hfa] at h; exact absurd h (by simp)
    | some st1 =>
      rw [hfa] at h
      simp only [Option.some_bind] at h
      exact ih st1 st' h (hf st a st1 hfa hp)

/-- Setting position `idx` of a reference list shaped
`(range n).map inl ++ tail` to `inl idx` keeps that shape. -/
theorem refs_set_shape (n idx : Nat) (t : List (Sum Nat Nat)) :
    ∃ t2, ((List.range n).map Sum.inl ++ t).set idx (Sum.inl idx)
      = (List.range n).map Sum.inl ++ t2 := by
  by_cases hlt : idx < n
  · refine ⟨t, ?_⟩
    apply List.ext_getElem (by simp)
    intro i h1 h2
    rw [List.getElem_set]
    split
    · rename_i he
      subst he
      rw [List.getElem_append_left (by simpa using hlt), List.getElem_map,
        List.getElem_range]
    · rfl
  · push_neg at hlt
    refine ⟨t.set (idx - n) (Sum.inl idx), ?_⟩
    apply List.ext_getElem (by simp)
    intro i h1 h2
    rw [List.getElem_set]
    split
    · rename_i he
      subst he
      rw [List.getElem_append_right (by simpa using hlt)]
      simp only [List.length_map, List.length_range]
      have hbound : idx - n < t.length := by
        simp only [List.length_append, List.length_map, List.length_range,
          List.length_set] at h2
        omega
      rw [List.getElem_set]
      simp
    · rename_i hne
      by_cases hin : i < n
      · rw [List.getElem_append_left (by simpa using hin),
          List.getElem_append_left (by simpa using hin)]
      · push_neg at hin
        rw [List.getElem_append_right (by simpa using hin),
          List.getElem_append_right (by simpa using hin)]
        simp only [List.length_map, List.length_range]
        have hbound : i - n < t.length := by
          simp only [List.length_set, List.length_append, List.length_map,
            List.length_range] at h1
          omega
        rw [List.getElem_set]
        have hx : idx - n ≠ i - n := by omega
        simp [hx]

/-- The loop invariant of `search_element_by_unique_key`: the actual
array keeps its length, and the `replace` references are the actual
positions in order followed by a tail of appended references. -/
abbrev seInv (n : Nat) (st : SEState) : Prop :=
  st.actualArr.length = n
  ∧ ∃ t, st.replaceRefs = (List.range n).map Sum.inl ++ t

theorem seInnerStep_preserve (jf : PyStr → JmesExpr) (aks : List Val)
    (idxs : List (Val × Nat)) (ei n : Nat) (st : SEState) (k : Val)
    (st' : SEState) (h : seInnerStep jf aks idxs ei st k = some st')
    (hp : seInv n st) : seInv n st' := by
  obtain ⟨hlen, t, ht⟩ := hp
  simp only [seInnerStep] at h
  repeat' split at h
  all_goals
    first
    | exact Option.noConfusion h
    | (simp only [Option.some.injEq] at h;
       subst h;
       refine ⟨by simp [hlen], ?_⟩;
       simp only [ht];
       first
       | exact ⟨t, rfl⟩
       | exact ⟨t ++ [Sum.inr ei], by simp⟩
       | exact refs_set_shape n _ t)

theorem range_map_getD {α : Type} (l : List α) (d : α) :
    (List.range l.length).map (fun i => l.getD i d) = l := by
  apply List.ext_getElem (by simp)
  intro i h1 h2
  rw [List.getElem_map, List.getElem_range]
  exact List.getD_eq_getElem l d h2

/-- C5 (amended): `search_element_by_unique_key` is additive — whenever
it returns, the merged list it returns is exactly the (post-call) actual
list, each original position kept (possibly merged in place), followed by
a tail of appended elements; in particular it never removes elements.
(The idempotence half of the original claim is refuted by
the counterexample: re-running duplicates expected elements that lack
the unique key.) -/
theorem C5_amended_additive (actual_list expected_list : List Val)
    (nk pk : PyStr) (res : SearchResult)
    (h : search_element_by_unique_key (.list actual_list) expected_list nk pk
      = some res) :
    res.actualAfter.length = actual_list.length
    ∧ ∃ tail, res.replace = res.actualAfter ++ tail := by
  simp only [search_element_by_unique_key] at h
  repeat' split at h
  all_goals
    first
    | exact Option.noConfusion h
    | (simp only [Option.some.injEq] at h;
       subst h;
       exact ⟨rfl, expected_list, rfl⟩)
    | (rename_i st hfold;
       simp only [Option.some.injEq] at h;
       subst h;
       have hinv : seInv actual_list.length st := by
         refine foldlM_option_preserve _ (seInv actual_list.length)
           ?_ _ _ st hfold ⟨rfl, [], by simp⟩
         intro st1 ei st2 hstep hp1
         simp only [] at hstep
         split at hstep
         · simp only [Option.some.injEq] at hstep
           subst hstep
           obtain ⟨hl1, t1, ht1⟩ := hp1
           exact ⟨hl1, t1 ++ [Sum.inr ei], by simp [ht1]⟩
         · exact foldlM_option_preserve _ (seInv actual_list.length)
             (fun sa ka sb hs hp => seInnerStep_preserve _ _ _ _ _ _ _ _ hs hp)
             _ _ _ hstep hp1
       obtain ⟨hlen, t, ht⟩ := hinv;
       refine ⟨hlen, ?_⟩;
       simp only [ht, List.map_append, List.map_map];
       refine ⟨t.map (fun r => match r with
           | Sum.inl i => st.actualArr.getD i Val.null
           | Sum.inr j => st.expectedArr.getD j Val.null), ?_⟩;
       congr 1;
       rw [show (List.map ((fun r => match r with
           | Sum.inl i => st.actualArr.getD i Val.null
           | Sum.inr j => st.expectedArr.getD j Val.null) ∘ Sum.inl)
           (List.range actual_list.length))
         = (List.range st.actualArr.length).map
             (fun i => st.actualArr.getD i Val.null) from by rw [hlen]; rfl];
       exact range_map_getD st.actualArr Val.null)

/-- Witness for the amended C5 at a concrete input. -/
theorem C5_amended_additive_witness :
    search_element_by_unique_key (.list [.dict [("x".toList, .int 1)]])
        [.dict [("x".toList, .int 1)]] "name".toList []
      = some ⟨[.dict [("x".toList, .int 1)]],
          [.dict [("x".toList, .int 1)], .dict [("x".toList, .int 1)]],
          [.dict [("x".toList, .int 1)]], [.dict [("x".toList, .int 1)]]⟩
    ∧ ((⟨[.dict [("x".toList, .int 1)]],
          [.dict [("x".toList, .int 1)], .dict [("x".toList, .int 1)]],
          [.dict [("x".toList, .int 1)]],
          [.dict [("x".toList, .int 1)]]⟩ : SearchResult).actualAfter.length
        = [Val.dict [("x".toList, .int 1)]].length
      ∧ ∃ tail, (⟨[.dict [("x".toList, .int 1)]],
          [.dict [("x".toList, .int 1)], .dict [("x".toList, .int 1)]],
          [.dict [("x".toList, .int 1)]],
          [.dict [("x".toList, .int 1)]]⟩ : SearchResult).replace
        = (⟨[.dict [("x".toList, .int 1)]],
          [.dict [("x".toList, .int 1)], .dict [("x".toList, .int 1)]],
          [.dict [("x".toList, .int 1)]],
          [.dict [("x".toList, .int 1)]]⟩ : SearchResult).actualAfter ++ tail) :=
  ⟨by decide, C5_amended_additive [.dict [("x".toList, .int 1)]]
    [.dict [("x".toList, .int 1)]] "name".toList [] _ (by decide)⟩

/-- Python `key in target` for the targets `traverse_yaml_tree` can meet:
key membership for dicts, element membership for lists, substring test
for strings; a `TypeError` (= `none`) for anything else. -/
def memPy : Val → PyStr → Option Bool
  | .dict m, k => some ((lookupA m k).isSome)
  | .list xs, k => some (xs.contains (.str k))
  | .str s, k => some (hasSub k s)
  | _, _ => none

mutual

/-- `traverse_yaml_tree(yaml_obj, change)` for a dict target: walk the
change entries in order, mutating the target entries. -/
def travEntries (m : Entries) : Entries → Option Entries
  | [] => some m
  | (k, v) :: rest =>
    match travStep m k v with
    | none => none
    | some m1 => travEntries m1 rest

/-- One `key, value` step of `traverse_yaml_tree` on a dict target: an
absent key is inserted wholesale (dict setitem appends); a scalar value
overwrites; a dict value recurses into the existing sub-object (on a
non-dict sub-object the recursive call only succeeds without touching it,
see `travOther`); a list value goes through `_traverse_yaml_list`. -/
def travStep (m : Entries) (k : PyStr) : Val → Option Entries
  | .dict es =>
    (match lookupA m k with
     | none => some (updateA m k (.dict es))
     | some (.dict m2) =>
       match travEntries m2 es with
       | none => none
       | some m2b => some (updateA m k (.dict m2b))
     | some w =>
       match travOther w es with
       | none => none
       | some _ => some m)
  | .list vs =>
    (match lookupA m k with
     | none => some (updateA m k (.list vs))
     | some w =>
       match vs with
       | [] => some m
       | v0 :: vrest =>
         match w with
         | .list cur =>
           (match travList cur 0 (v0 :: vrest) with
            | none => none
            | some cur2 => some (updateA m k (.list cur2)))
         | _ => none)
  | v =>
    some (updateA m k v)

/-- `_traverse_yaml_list(yaml_obj, key, value)` acting on the existing
list `cur` from change index `i` on: an index past the end appends; a
scalar existing element is replaced wholesale (even by a structured
element); a scalar element replaces; otherwise recurse (a list element
inside a list change makes the recursive `traverse_yaml_tree` iterate
`change.items()` on a list, which raises). -/
def travList (cur : List Val) (i : Nat) : List Val → Option (List Val)
  | [] => some cur
  | e :: rest =>
    if i < cur.length then
      if isScalar (cur.getD i .null) then
        travList (cur.set i e) (i+1) rest
      else if isScalar e then
        travList (cur.set i e) (i+1) rest
      else
        match e with
        | .dict es =>
          (match cur.getD i .null with
           | .dict mi =>
             (match travEntries mi es with
              | none => none
              | some mib => travList (cur.set i (.dict mib)) (i+1) rest)
           | wi =>
             (match travOther wi es with
              | none => none
              | some _ => travList cur (i+1) rest))
        | _ => none
    else
      travList (cur ++ [e]) (i+1) rest

/-- `traverse_yaml_tree(yaml_obj, change)` for a non-dict target: each
change key is first probed with `key not in yaml_obj` (which can itself
raise); an absent key tries the insert path, which raises on these
targets; for a present key every branch raises when it subscripts the
target — except a `[]` list value, whose `_traverse_yaml_list` loops zero
times.  The target is never modified. -/
def travOther (w : Val) : Entries → Option Unit
  | [] => some ()
  | (k, v) :: rest =>
    match memPy w k with
    | none => none
    | some false => none
    | some true =>
      match v with
      | .list [] => travOther w rest
      | _ => none

end

/-- `traverse_yaml_tree(yaml_obj, change)`: `none` when the Python call
raises, otherwise the post-mutation target. -/
def traverse_yaml_tree (t : Val) (change : Entries) : Option Val :=
  match t with
  | .dict m =>
    (match travEntries m change with
     | none => none
     | some m2 => some (.dict m2))
  | w =>
    (match travOther w change with
     | none => none
     | some _ => some w)

/-- The value stored under the changed key after one successful
`traverse_yaml_tree` step, as a function of the previously stored value
(`none` = key absent).  The outer `none` means the Python step raises.
`travStep_eq` below proves this characterizes `travStep`. -/
def stepNew (old : Option Val) : Val → Option Val
  | .dict es =>
    (match old with
     | none => some (.dict es)
     | some (.dict m2) =>
       (match travEntries m2 es with
        | none => none
        | some m2b => some (.dict m2b))
     | some w =>
       (match travOther w es with
        | none => none
        | some _ => some w))
  | .list vs =>
    (match old with
     | none => some (.list vs)
     | some w =>
       match vs with
       | [] => some w
       | v0 :: vrest =>
         match w with
         | .list cur =>
           (match travList cur 0 (v0 :: vrest) with
            | none => none
            | some cur2 => some (.list cur2))
         | _ => none)
  | v => some v

mutual

/-- The change-sets the writer receives are Python dicts: keys are unique
at every level; and no list in the change directly contains another list
(on such an element the second application would hand a list to
`traverse_yaml_tree` as the change, which raises). -/
def NiceC : Val → Bool
  | .dict es => NiceCE es
  | .list vs => NiceCL vs
  | _ => true

/-- `NiceC` on dict entries (unique keys, nice values). -/
def NiceCE : Entries → Bool
  | [] => true
  | (k, v) :: rest => (lookupA rest k).isNone && NiceC v && NiceCE rest

/-- `NiceC` on list elements (no nested list elements). -/
def NiceCL : List Val → Bool
  | [] => true
  | .list _ :: _ => false
  | v :: rest => NiceC v && NiceCL rest

end

theorem lookupA_updateA_self {α : Type} (m : List (PyStr × α)) (k : PyStr)
    (v : α) : lookupA (updateA m k v) k = some v := by
  induction m with
  | nil => simp [lookupA, updateA]
  | cons p rest ih =>
    obtain ⟨k1, v1⟩ := p
    by_cases hk : k1 = k
    · simp [lookupA, updateA, hk]
    · simp [lookupA, updateA, hk, ih]

theorem lookupA_updateA_ne {α : Type} (m : List (PyStr × α)) (k1 k : PyStr)
    (v : α) (hk : k ≠ k1) : lookupA (updateA m k1 v) k = lookupA m k := by
  have hk1 : ¬ (k1 = k) := fun h => hk h.symm
  induction m with
  | nil => simp [lookupA, updateA, hk1]
  | cons p rest ih =>
    obtain ⟨k2, v2⟩ := p
    by_cases h2 : k2 = k1
    · subst h2
      simp [lookupA, updateA, hk1]
    · simp only [updateA, h2, if_false, lookupA]
      by_cases h3 : k2 = k
      · simp [h3]
      · simp [h3, ih]

theorem updateA_self {α : Type} (m : List (PyStr × α)) (k : PyStr) (v : α)
    (h : lookupA m k = some v) : updateA m k v = m := by
  induction m with
  | nil => simp [lookupA] at h
  | cons p rest ih =>
    obtain ⟨k1, v1⟩ := p
    by_cases hk : k1 = k
    · subst hk
      simp [lookupA] at h
      subst h
      simp [updateA]
    · simp only [lookupA, hk, if_false] at h
      simp [updateA, hk, ih h]

theorem set_self {α : Type} (l : List α) (i : Nat) (x d : α)
    (hi : i < l.length) (hx : l.getD i d = x) : l.set i x = l := by
  apply List.ext_getElem (by simp)
  intro j h1 h2
  rw [List.getElem_set]
  split
  · rename_i he
    subst he
    rw [← hx]
    exact List.getD_eq_getElem l d hi
  · rfl

theorem getD_set_ne {α : Type} (l : List α) (i j : Nat) (x d : α)
    (h : i ≠ j) : (l.set i x).getD j d = l.getD j d := by
  by_cases hj : j < l.length
  · rw [List.getD_eq_getElem _ d (by simpa using hj),
      List.getD_eq_getElem _ d hj, List.getElem_set]
    simp [h]
  · push_neg at hj
    rw [List.getD_eq_default _ d (by simpa using hj),
      List.getD_eq_default _ d (by simpa using hj)]

theorem getD_append_left {α : Type} (l t : List α) (j : Nat) (d : α)
    (h : j < l.length) : (l ++ t).getD j d = l.getD j d := by
  rw [List.getD_eq_getElem _ d (by simp; omega), List.getD_eq_getElem _ d h,
    List.getElem_append_left h]

theorem niceCE_mem_lookup (c : Entries) (k : PyStr) (v : Val)
    (hn : NiceCE c = true) (hm : (k, v) ∈ c) : lookupA c k = some v := by
  induction c with
  | nil => simp at hm
  | cons p rest ih =>
    obtain ⟨k1, v1⟩ := p
    simp only [NiceCE, Bool.and_eq_true] at hn
    obtain ⟨⟨hnone, hv1⟩, hrest⟩ := hn
    rcases List.mem_cons.mp hm with he | ht
    · obtain ⟨h1, h2⟩ := Prod.mk.inj he.symm
      subst h1; subst h2
      simp [lookupA]
    · by_cases hk : k1 = k
      · subst hk
        have := ih hrest ht
        rw [Option.isNone_iff_eq_none] at hnone
        rw [this] at hnone
        exact absurd hnone (by simp)
      · simp only [lookupA, hk, if_false]
        exact ih hrest ht

theorem niceCE_mem_nice (c : Entries) (k : PyStr) (v : Val)
    (hn : NiceCE c = true) (hm : (k, v) ∈ c) : NiceC v = true := by
  induction c with
  | nil => simp at hm
  | cons p rest ih =>
    obtain ⟨k1, v1⟩ := p
    simp only [NiceCE, Bool.and_eq_true] at hn
    obtain ⟨⟨hnone, hv1⟩, hrest⟩ := hn
    rcases List.mem_cons.mp hm with he | ht
    · obtain ⟨h1, h2⟩ := Prod.mk.inj he.symm
      subst h2
      exact hv1
    · exact ih hrest ht

theorem getD_set_self {α : Type} (l : List α) (i : Nat) (x d : α)
    (hi : i < l.length) : (l.set i x).getD i d = x := by
  rw [List.getD_eq_getElem _ d (by simpa using hi), List.getElem_set]
  simp

theorem getD_concat_length {α : Type} (l : List α) (x d : α) :
    (l ++ [x]).getD l.length d = x := by
  rw [List.getD_eq_getElem _ d (by simp)]
  simp

theorem lookupA_none_not_mem {α : Type} (m : List (PyStr × α)) (k : PyStr)
    (h : lookupA m k = none) : ∀ p ∈ m, ¬ p.1 = k := by
  intro p hp he
  induction m with
  | nil => simp at hp
  | cons q rest ih =>
    obtain ⟨k1, v1⟩ := q
    by_cases h1 : k1 = k
    · simp [lookupA, h1] at h
    · simp only [lookupA, h1, if_false] at h
      rcases List.mem_cons.mp hp with hq | ht
      · rw [hq] at he
        exact h1 he
      · exact ih h ht

theorem travStep_frame (m : Entries) (k1 : PyStr) (v : Val) (m1 : Entries)
    (k : PyStr) (h : travStep m k1 v = some m1) (hk : k ≠ k1) :
    lookupA m1 k = lookupA m k := by
  rw [travStep.eq_def] at h
  repeat' split at h
  all_goals
    first
    | exact Option.noConfusion h
    | (simp only [Option.some.injEq] at h;
       subst h;
       first
       | rfl
       | exact lookupA_updateA_ne _ _ _ _ hk)

theorem travEntries_frame (c : Entries) (m m' : Entries) (k : PyStr)
    (h : travEntries m c = some m') (hc : ∀ p ∈ c, ¬ p.1 = k) :
    lookupA m' k = lookupA m k := by
  induction c generalizing m with
  | nil =>
    simp only [travEntries, Option.some.injEq] at h
    rw [h]
  | cons p rest ih =>
    obtain ⟨k1, v1⟩ := p
    simp only [travEntries] at h
    split at h
    · exact Option.noConfusion h
    · rename_i m2 hstep
      have h1 : lookupA m2 k = lookupA m k :=
        travStep_frame m k1 v1 m2 k hstep
          (fun he => hc (k1, v1) (by simp) (by simp [he]))
      rw [ih m2 h (fun q hq => hc q (by simp [hq]))]
      exact h1

theorem travList_frame (vs : List Val) : ∀ (c : List Val) (i : Nat)
    (c' : List Val), i ≤ c.length → travList c i vs = some c' →
    (∀ j, j < i → c'.getD j .null = c.getD j .null)
    ∧ c.length ≤ c'.length := by
  induction vs with
  | nil =>
    intro c i c' hi h
    simp only [travList, Option.some.injEq] at h
    subst h
    exact ⟨fun j hj => rfl, le_refl _⟩
  | cons e rest ih =>
    intro c i c' hi h
    rw [travList.eq_def] at h
    dsimp only at h
    by_cases hlt : i < c.length
    · rw [if_pos hlt] at h
      split at h
      · have := ih (c.set i e) (i+1) c' (by simp; omega) h
        refine ⟨fun j hj => ?_, by simpa using this.2⟩
        rw [this.1 j (by omega), getD_set_ne _ _ _ _ _ (by omega)]
      · split at h
        · have := ih (c.set i e) (i+1) c' (by simp; omega) h
          refine ⟨fun j hj => ?_, by simpa using this.2⟩
          rw [this.1 j (by omega), getD_set_ne _ _ _ _ _ (by omega)]
        · split at h
          · split at h
            · split at h
              · exact Option.noConfusion h
              · rename_i mib hmib
                have := ih (c.set i (.dict mib)) (i+1) c' (by simp; omega) h
                refine ⟨fun j hj => ?_, by simpa using this.2⟩
                rw [this.1 j (by omega), getD_set_ne _ _ _ _ _ (by omega)]
            · split at h
              · exact Option.noConfusion h
              · have := ih c (i+1) c' (by omega) h
                exact ⟨fun j hj => this.1 j (by omega), this.2⟩
          · exact Option.noConfusion h
    · rw [if_neg hlt] at h
      have hieq : i = c.length := by omega
      have := ih (c ++ [e]) (i+1) c' (by simp; omega) h
      refine ⟨fun j hj => ?_, by
        have := this.2
        simp only [List.length_append, List.length_cons, List.length_nil] at this
        omega⟩
      rw [this.1 j (by omega), getD_append_left _ _ _ _ (by omega)]

theorem travStep_eq (m : Entries) (k : PyStr) (v : Val) :
    travStep m k v
      = Option.map (fun w => updateA m k w) (stepNew (lookupA m k) v) := by
  rw [travStep.eq_def, stepNew.eq_def]
  cases v with
  | dict es =>
    cases hlk : lookupA m k with
    | none => rfl
    | some w =>
      cases w with
      | dict m2 =>
        dsimp only
        cases travEntries m2 es with
        | none => rfl
        | some m2b => rfl
      | null =>
        dsimp only
        cases hto : travOther .null es with
        | none => rfl
        | some u => simp [updateA_self m k _ hlk]
      | bool b =>
        dsimp only
        cases hto : travOther (.bool b) es with
        | none => rfl
        | some u => simp [updateA_self m k _ hlk]
      | int n =>
        dsimp only
        cases hto : travOther (.int n) es with
        | none => rfl
        | some u => simp [updateA_self m k _ hlk]
      | str s =>
        dsimp only
        cases hto : travOther (.str s) es with
        | none => rfl
        | some u => simp [updateA_self m k _ hlk]
      | list l =>
        dsimp only
        cases hto : travOther (.list l) es with
        | none => rfl
        | some u => simp [updateA_self m k _ hlk]
  | list vs =>
    cases hlk : lookupA m k with
    | none => rfl
    | some w =>
      cases vs with
      | nil =>
        dsimp only
        simp [updateA_self m k _ hlk]
      | cons v0 vrest =>
        cases w with
        | list cur =>
          dsimp only
          cases travList cur 0 (v0 :: vrest) with
          | none => rfl
          | some cur2 => rfl
        | null => rfl
        | bool b => rfl
        | int n => rfl
        | str s => rfl
        | dict m2 => rfl
  | null => rfl
  | bool b => rfl
  | int n => rfl
  | str s => rfl

theorem niceCL_cons (e : Val) (rest : List Val) (hn : NiceCL (e :: rest) = true) :
    (∀ l, ¬ e = .list l) ∧ NiceC e = true ∧ NiceCL rest = true := by
  cases e with
  | list l => simp [NiceCL] at hn
  | dict es =>
    simp only [NiceCL, Bool.and_eq_true] at hn
    exact ⟨fun l h => Val.noConfusion h, hn.1, hn.2⟩
  | null =>
    simp only [NiceCL, Bool.and_eq_true] at hn
    exact ⟨fun l h => Val.noConfusion h, hn.1, hn.2⟩
  | bool b =>
    simp only [NiceCL, Bool.and_eq_true] at hn
    exact ⟨fun l h => Val.noConfusion h, hn.1, hn.2⟩
  | int n =>
    simp only [NiceCL, Bool.and_eq_true] at hn
    exact ⟨fun l h => Val.noConfusion h, hn.1, hn.2⟩
  | str s =>
    simp only [NiceCL, Bool.and_eq_true] at hn
    exact ⟨fun l h => Val.noConfusion h, hn.1, hn.2⟩

theorem weightE_cons (p : PyStr × Val) (rs : Entries) :
    Val.weightE (p :: rs) = Val.weight p.2 + Val.weightE rs + 1 := by
  obtain ⟨k, v⟩ := p
  rfl

theorem niceCE_cons (p : PyStr × Val) (rs : Entries) (hn : NiceCE (p :: rs) = true) :
    (lookupA rs p.1).isNone = true ∧ NiceC p.2 = true ∧ NiceCE rs = true := by
  obtain ⟨k, v⟩ := p
  simp only [NiceCE, Bool.and_eq_true] at hn
  exact ⟨hn.1.1, hn.1.2, hn.2⟩

theorem travEntries_cons (m : Entries) (p : PyStr × Val) (rs : Entries) :
    travEntries m (p :: rs)
      = match travStep m p.1 p.2 with
        | none => none
        | some m1 => travEntries m1 rs := by
  obtain ⟨k, v⟩ := p
  rfl

mutual

theorem stepNew_fix (v : Val) (hn : NiceC v = true) :
    stepNew (some v) v = some v := by
  rw [stepNew.eq_def]
  cases v with
  | null => rfl
  | bool b => rfl
  | int n => rfl
  | str s => rfl
  | dict es =>
    have hnE : NiceCE es = true := by simpa [NiceC] using hn
    dsimp only
    rw [travEntries_self es es hnE
      (fun p hp => niceCE_mem_lookup es p.1 p.2 hnE hp)]
  | list vs =>
    have hnL : NiceCL vs = true := by simpa [NiceC] using hn
    cases vs with
    | nil => rfl
    | cons v0 vr =>
      dsimp only
      rw [travList_self (v0 :: vr) (v0 :: vr) 0 hnL (by simp)]
termination_by Val.weight v
decreasing_by
  all_goals subst_vars
  all_goals simp [Val.weight, Val.weightE, Val.weightL, weightE_cons]
  all_goals omega

theorem travEntries_self (c : Entries) (m : Entries)
    (hn : NiceCE c = true) (hfix : ∀ p ∈ c, lookupA m p.1 = some p.2) :
    travEntries m c = some m := by
  cases c with
  | nil => rfl
  | cons p rs =>
    obtain ⟨hnone, hv, hrest⟩ := niceCE_cons p rs hn
    have hlk : lookupA m p.1 = some p.2 := hfix p (by simp)
    have hst : travStep m p.1 p.2 = some m := by
      rw [travStep_eq, hlk, stepNew_fix p.2 hv]
      simp [updateA_self m p.1 p.2 hlk]
    rw [travEntries_cons, hst]
    exact travEntries_self rs m hrest (fun q hq => hfix q (by simp [hq]))
termination_by Val.weightE c
decreasing_by
  all_goals subst_vars
  all_goals simp [Val.weight, Val.weightE, Val.weightL, weightE_cons]
  all_goals omega

theorem travList_self (rest : List Val) : ∀ (cur : List Val) (i : Nat),
    NiceCL rest = true → cur.drop i = rest → travList cur i rest = some cur := by
  cases rest with
  | nil =>
    intro cur i hn hd
    rfl
  | cons e rs =>
    intro cur i hn hd
    obtain ⟨hne, hnc, hnr⟩ := niceCL_cons e rs hn
    have hlt : i < cur.length := by
      by_contra hc
      push_neg at hc
      rw [List.drop_eq_nil_of_le hc] at hd
      exact List.noConfusion hd
    have hget : cur[i] :: cur.drop (i+1) = e :: rs := by
      rw [← List.drop_eq_getElem_cons hlt, hd]
    injection hget with h1 h2
    have he : cur.getD i .null = e := by
      rw [List.getD_eq_getElem cur .null hlt]
      exact h1
    rw [travList.eq_def]
    dsimp only
    rw [if_pos hlt]
    cases e with
    | list l => exact absurd rfl (hne l)
    | null =>
      rw [if_pos (by rw [he]; rfl)]
      rw [set_self cur i .null .null hlt he]
      exact travList_self rs cur (i+1) hnr h2
    | bool b =>
      rw [if_pos (by rw [he]; rfl)]
      rw [set_self cur i (.bool b) .null hlt he]
      exact travList_self rs cur (i+1) hnr h2
    | int n =>
      rw [if_pos (by rw [he]; rfl)]
      rw [set_self cur i (.int n) .null hlt he]
      exact travList_self rs cur (i+1) hnr h2
    | str s =>
      rw [if_pos (by rw [he]; rfl)]
      rw [set_self cur i (.str s) .null hlt he]
      exact travList_self rs cur (i+1) hnr h2
    | dict es =>
      have hnE : NiceCE es = true := by simpa [NiceC] using hnc
      rw [if_neg (by rw [he]; simp [isScalar])]
      rw [if_neg (by simp [isScalar])]
      dsimp only
      rw [he]
      dsimp only
      rw [travEntries_self es es hnE
        (fun p hp => niceCE_mem_lookup es p.1 p.2 hnE hp)]
      dsimp only
      rw [set_self cur i (.dict es) .null hlt he]
      exact travList_self rs cur (i+1) hnr h2
termination_by Val.weightL rest
decreasing_by
  all_goals subst_vars
  all_goals simp [Val.weight, Val.weightE, Val.weightL, weightE_cons]
  all_goals omega

end

mutual

theorem stepNew_idem (v : Val) (old : Option Val) (w : Val)
    (hn : NiceC v = true) (h : stepNew old v = some w) :
    stepNew (some w) v = some w := by
  rw [stepNew.eq_def] at h
  cases v with
  | null =>
    dsimp only at h
    simp only [Option.some.injEq] at h
    subst h
    rfl
  | bool b =>
    dsimp only at h
    simp only [Option.some.injEq] at h
    subst h
    rfl
  | int n =>
    dsimp only at h
    simp only [Option.some.injEq] at h
    subst h
    rfl
  | str s =>
    dsimp only at h
    simp only [Option.some.injEq] at h
    subst h
    rfl
  | dict es =>
    have hnE : NiceCE es = true := by simpa [NiceC] using hn
    dsimp only at h
    cases old with
    | none =>
      simp only [Option.some.injEq] at h
      subst h
      exact stepNew_fix (.dict es) hn
    | some ow =>
      cases ow with
      | dict m2 =>
        dsimp only at h
        cases hte : travEntries m2 es with
        | none =>
          rw [hte] at h
          exact Option.noConfusion h
        | some m2b =>
          rw [hte] at h
          dsimp only at h
          simp only [Option.some.injEq] at h
          subst h
          rw [stepNew.eq_def]
          dsimp only
          rw [travEntries_idem es m2 m2b hnE hte]
      | null =>
        dsimp only at h
        cases hto : travOther .null es with
        | none =>
          rw [hto] at h
          exact Option.noConfusion h
        | some u =>
          rw [hto] at h
          dsimp only at h
          simp only [Option.some.injEq] at h
          subst h
          rw [stepNew.eq_def]
          dsimp only
          rw [hto]
      | bool b =>
        dsimp only at h
        cases hto : travOther (.bool b) es with
        | none =>
          rw [hto] at h
          exact Option.noConfusion h
        | some u =>
          rw [hto] at h
          dsimp only at h
          simp only [Option.some.injEq] at h
          subst h
          rw [stepNew.eq_def]
          dsimp only
          rw [hto]
      | int n =>
        dsimp only at h
        cases hto : travOther (.int n) es with
        | none =>
          rw [hto] at h
          exact Option.noConfusion h
        | some u =>
          rw [hto] at h
          dsimp only at h
          simp only [Option.some.injEq] at h
          subst h
          rw [stepNew.eq_def]
          dsimp only
          rw [hto]
      | str s =>
        dsimp only at h
        cases hto : travOther (.str s) es with
        | none =>
          rw [hto] at h
          exact Option.noConfusion h
        | some u =>
          rw [hto] at h
          dsimp only at h
          simp only [Option.some.injEq] at h
          subst h
          rw [stepNew.eq_def]
          dsimp only
          rw [hto]
      | list l =>
        dsimp only at h
        cases hto : travOther (.list l) es with
        | none =>
          rw [hto] at h
          exact Option.noConfusion h
        | some u =>
          rw [hto] at h
          dsimp only at h
          simp only [Option.some.injEq] at h
          subst h
          rw [stepNew.eq_def]
          dsimp only
          rw [hto]
  | list vs =>
    have hnL : NiceCL vs = true := by simpa [NiceC] using hn
    dsimp only at h
    cases old with
    | none =>
      simp only [Option.some.injEq] at h
      subst h
      exact stepNew_fix (.list vs) hn
    | some ow =>
      cases vs with
      | nil =>
        dsimp only at h
        simp only [Option.some.injEq] at h
        subst h
        rfl
      | cons v0 vr =>
        cases ow with
        | list cur =>
          dsimp only at h
          cases htl : travList cur 0 (v0 :: vr) with
          | none =>
            rw [htl] at h
            exact Option.noConfusion h
          | some cur2 =>
            rw [htl] at h
            dsimp only at h
            simp only [Option.some.injEq] at h
            subst h
            rw [stepNew.eq_def]
            dsimp only
            rw [travList_idem (v0 :: vr) cur 0 cur2 hnL (by omega) htl]
        | null => dsimp only at h; exact Option.noConfusion h
        | bool b => dsimp only at h; exact Option.noConfusion h
        | int n => dsimp only at h; exact Option.noConfusion h
        | str s => dsimp only at h; exact Option.noConfusion h
        | dict m2 => dsimp only at h; exact Option.noConfusion h
termination_by Val.weight v
decreasing_by
  all_goals subst_vars
  all_goals simp [Val.weight, Val.weightE, Val.weightL, weightE_cons]
  all_goals omega

theorem travEntries_idem (c : Entries) (m m2 : Entries)
    (hn : NiceCE c = true) (h : travEntries m c = some m2) :
    travEntries m2 c = some m2 := by
  cases c with
  | nil =>
    simp only [travEntries, Option.some.injEq] at h
    subst h
    rfl
  | cons p rs =>
    obtain ⟨hnone, hv, hrest⟩ := niceCE_cons p rs hn
    rw [travEntries_cons] at h
    split at h
    · exact Option.noConfusion h
    · rename_i m1 hstep
      rw [travStep_eq] at hstep
      rcases Option.map_eq_some'.mp hstep with ⟨w, hsn, hupd⟩
      have hm1k : lookupA m1 p.1 = some w := by
        rw [← hupd]
        exact lookupA_updateA_self m p.1 w
      have hmk2 : lookupA m2 p.1 = some w := by
        rw [travEntries_frame rs m1 m2 p.1 h
          (lookupA_none_not_mem rs p.1 (Option.isNone_iff_eq_none.mp hnone))]
        exact hm1k
      have hsn2 : stepNew (some w) p.2 = some w :=
        stepNew_idem p.2 (lookupA m p.1) w hv hsn
      have hst2 : travStep m2 p.1 p.2 = some m2 := by
        rw [travStep_eq, hmk2, hsn2]
        simp [updateA_self m2 p.1 w hmk2]
      rw [travEntries_cons, hst2]
      exact travEntries_idem rs m1 m2 hrest h
termination_by Val.weightE c
decreasing_by
  all_goals subst_vars
  all_goals simp [Val.weight, Val.weightE, Val.weightL, weightE_cons]
  all_goals omega

theorem travList_idem (rest : List Val) : ∀ (cur : List Val) (i : Nat)
    (cur2 : List Val), NiceCL rest = true → i ≤ cur.length →
    travList cur i rest = some cur2 → travList cur2 i rest = some cur2 := by
  cases rest with
  | nil =>
    intro cur i cur2 hn hi h
    simp only [travList, Option.some.injEq] at h
    subst h
    rfl
  | cons e rs =>
    intro cur i cur2 hn hi h
    obtain ⟨hne, hnc, hnr⟩ := niceCL_cons e rs hn
    rw [travList.eq_def] at h
    dsimp only at h
    by_cases hlt : i < cur.length
    · rw [if_pos hlt] at h
      by_cases hsc : isScalar (cur.getD i .null) = true
      · rw [if_pos hsc] at h
        have hf := travList_frame rs (cur.set i e) (i+1) cur2 (by simp; omega) h
        have hcur2i : cur2.getD i .null = e := by
          rw [hf.1 i (by omega), getD_set_self cur i e .null hlt]
        have hlen : cur.length ≤ cur2.length := by
          have h2 := hf.2
          simpa using h2
        rw [travList.eq_def]
        dsimp only
        rw [if_pos (show i < cur2.length by omega)]
        cases e with
        | list l => exact absurd rfl (hne l)
        | null =>
          rw [if_pos (by rw [hcur2i]; rfl)]
          rw [set_self cur2 i .null .null (by omega) hcur2i]
          exact travList_idem rs (cur.set i .null) (i+1) cur2 hnr (by simp; omega) h
        | bool b =>
          rw [if_pos (by rw [hcur2i]; rfl)]
          rw [set_self cur2 i (.bool b) .null (by omega) hcur2i]
          exact travList_idem rs (cur.set i (.bool b)) (i+1) cur2 hnr (by simp; omega) h
        | int n =>
          rw [if_pos (by rw [hcur2i]; rfl)]
          rw [set_self cur2 i (.int n) .null (by omega) hcur2i]
          exact travList_idem rs (cur.set i (.int n)) (i+1) cur2 hnr (by simp; omega) h
        | str s =>
          rw [if_pos (by rw [hcur2i]; rfl)]
          rw [set_self cur2 i (.str s) .null (by omega) hcur2i]
          exact travList_idem rs (cur.set i (.str s)) (i+1) cur2 hnr (by simp; omega) h
        | dict es =>
          have hnE : NiceCE es = true := by simpa [NiceC] using hnc
          rw [if_neg (by rw [hcur2i]; simp [isScalar])]
          rw [if_neg (by simp [isScalar])]
          dsimp only
          rw [hcur2i]
          dsimp only
          rw [travEntries_self es es hnE
            (fun p hp => niceCE_mem_lookup es p.1 p.2 hnE hp)]
          dsimp only
          rw [set_self cur2 i (.dict es) .null (by omega) hcur2i]
          exact travList_idem rs (cur.set i (.dict es)) (i+1) cur2 hnr (by simp; omega) h
      · rw [if_neg hsc] at h
        by_cases hse : isScalar e = true
        · rw [if_pos hse] at h
          have hf := travList_frame rs (cur.set i e) (i+1) cur2 (by simp; omega) h
          have hcur2i : cur2.getD i .null = e := by
            rw [hf.1 i (by omega), getD_set_self cur i e .null hlt]
          have hlen : cur.length ≤ cur2.length := by
            have h2 := hf.2
            simpa using h2
          rw [travList.eq_def]
          dsimp only
          rw [if_pos (show i < cur2.length by omega)]
          rw [if_pos (by rw [hcur2i]; exact hse)]
          rw [set_self cur2 i e .null (by omega) hcur2i]
          exact travList_idem rs (cur.set i e) (i+1) cur2 hnr (by simp; omega) h
        · rw [if_neg hse] at h
          cases e with
          | list l => exact absurd rfl (hne l)
          | null => exact absurd rfl hse
          | bool b => exact absurd rfl hse
          | int n => exact absurd rfl hse
          | str s => exact absurd rfl hse
          | dict es =>
            have hnE : NiceCE es = true := by simpa [NiceC] using hnc
            dsimp only at h
            cases hgi : cur.getD i .null with
            | dict mi =>
              rw [hgi] at h
              dsimp only at h
              cases hte : travEntries mi es with
              | none =>
                rw [hte] at h
                exact Option.noConfusion h
              | some mib =>
                rw [hte] at h
                dsimp only at h
                have hf := travList_frame rs (cur.set i (.dict mib)) (i+1) cur2
                  (by simp; omega) h
                have hcur2i : cur2.getD i .null = .dict mib := by
                  rw [hf.1 i (by omega), getD_set_self cur i (.dict mib) .null hlt]
                have hlen : cur.length ≤ cur2.length := by
                  have h2 := hf.2
                  simpa using h2
                rw [travList.eq_def]
                dsimp only
                rw [if_pos (show i < cur2.length by omega)]
                rw [if_neg (by rw [hcur2i]; simp [isScalar])]
                rw [if_neg (by simp [isScalar])]
                rw [hcur2i]
                dsimp only
                rw [travEntries_idem es mi mib hnE hte]
                dsimp only
                rw [set_self cur2 i (.dict mib) .null (by omega) hcur2i]
                exact travList_idem rs (cur.set i (.dict mib)) (i+1) cur2 hnr
                  (by simp; omega) h
            | null =>
              rw [hgi] at h
              exact absurd (by rw [hgi]; rfl) hsc
            | bool b =>
              rw [hgi] at h
              exact absurd (by rw [hgi]; rfl) hsc
            | int n =>
              rw [hgi] at h
              exact absurd (by rw [hgi]; rfl) hsc
            | str s =>
              rw [hgi] at h
              exact absurd (by rw [hgi]; rfl) hsc
            | list li =>
              rw [hgi] at h
              dsimp only at h
              cases hto : travOther (.list li) es with
              | none =>
                rw [hto] at h
                exact Option.noConfusion h
              | some u =>
                rw [hto] at h
                dsimp only at h
                have hf := travList_frame rs cur (i+1) cur2 (by omega) h
                have hcur2i : cur2.getD i .null = .list li := by
                  rw [hf.1 i (by omega), hgi]
                have hlen : cur.length ≤ cur2.length := hf.2
                rw [travList.eq_def]
                dsimp only
                rw [if_pos (show i < cur2.length by omega)]
                rw [if_neg (by rw [hcur2i]; simp [isScalar])]
                rw [if_neg (by simp [isScalar])]
                rw [hcur2i]
                dsimp only
                rw [hto]
                dsimp only
                exact travList_idem rs cur (i+1) cur2 hnr (by omega) h
    · rw [if_neg hlt] at h
      have hieq : i = cur.length := by omega
      have hf := travList_frame rs (cur ++ [e]) (i+1) cur2 (by simp; omega) h
      have hcur2i : cur2.getD i .null = e := by
        rw [hf.1 i (by omega), hieq, getD_concat_length]
      have hlen : cur.length + 1 ≤ cur2.length := by
        have h2 := hf.2
        simp only [List.length_append, List.length_cons, List.length_nil] at h2
        omega
      rw [travList.eq_def]
      dsimp only
      rw [if_pos (show i < cur2.length by omega)]
      cases e with
      | list l => exact absurd rfl (hne l)
      | null =>
        rw [if_pos (by rw [hcur2i]; rfl)]
        rw [set_self cur2 i .null .null (by omega) hcur2i]
        exact travList_idem rs (cur ++ [.null]) (i+1) cur2 hnr (by simp; omega) h
      | bool b =>
        rw [if_pos (by rw [hcur2i]; rfl)]
        rw [set_self cur2 i (.bool b) .null (by omega) hcur2i]
        exact travList_idem rs (cur ++ [.bool b]) (i+1) cur2 hnr (by simp; omega) h
      | int n =>
        rw [if_pos (by rw [hcur2i]; rfl)]
        rw [set_self cur2 i (.int n) .null (by omega) hcur2i]
        exact travList_idem rs (cur ++ [.int n]) (i+1) cur2 hnr (by simp; omega) h
      | str s =>
        rw [if_pos (by rw [hcur2i]; rfl)]
        rw [set_self cur2 i (.str s) .null (by omega) hcur2i]
        exact travList_idem rs (cur ++ [.str s]) (i+1) cur2 hnr (by simp; omega) h
      | dict es =>
        have hnE : NiceCE es = true := by simpa [NiceC] using hnc
        rw [if_neg (by rw [hcur2i]; simp [isScalar])]
        rw [if_neg (by simp [isScalar])]
        dsimp only
        rw [hcur2i]
        dsimp only
        rw [travEntries_self es es hnE
          (fun p hp => niceCE_mem_lookup es p.1 p.2 hnE hp)]
        dsimp only
        rw [set_self cur2 i (.dict es) .null (by omega) hcur2i]
        exact travList_idem rs (cur ++ [.dict es]) (i+1) cur2 hnr (by simp; omega) h
termination_by Val.weightL rest
decreasing_by
  all_goals subst_vars
  all_goals simp [Val.weight, Val.weightE, Val.weightL, weightE_cons]
  all_goals omega

end

/-- C7: the Tree Writer is NOT idempotent for every target document and
every change-set: on the target `{"a": [1]}` with the change-set
`{"a": [[2]]}` the first application succeeds (the scalar element `1` is
replaced wholesale by the list `[2]`), but the second application hands
the existing list element `[2]` together with the change element `[2]`
to the recursive `traverse_yaml_tree`, which raises on a list change
(`change.items()` does not exist on a list). -/
theorem C7_counterexample :
    traverse_yaml_tree (.dict [("a".toList, .list [.int 1])])
        [("a".toList, .list [.list [.int 2]])]
      = some (.dict [("a".toList, .list [.list [.int 2]])])
    ∧ traverse_yaml_tree (.dict [("a".toList, .list [.list [.int 2]])])
        [("a".toList, .list [.list [.int 2]])]
      = none := by
  constructor
  · rfl
  · rfl

/-- C7 (amended): for change-sets that are well-formed Python dicts at
every level (unique keys) and whose lists do not directly contain other
lists, `traverse_yaml_tree` is idempotent: a second application to the
result of a successful first application returns that result unchanged. -/
theorem C7_amended_idempotent (t : Val) (c : Entries) (u : Val)
    (hn : NiceCE c = true) (h : traverse_yaml_tree t c = some u) :
    traverse_yaml_tree u c = some u := by
  rw [traverse_yaml_tree.eq_def] at h
  cases t with
  | dict m =>
    dsimp only at h
    cases hte : travEntries m c with
    | none =>
      rw [hte] at h
      exact Option.noConfusion h
    | some m2 =>
      rw [hte] at h
      dsimp only at h
      simp only [Option.some.injEq] at h
      subst h
      rw [traverse_yaml_tree.eq_def]
      dsimp only
      rw [travEntries_idem c m m2 hn hte]
  | null =>
    dsimp only at h
    cases hto : travOther .null c with
    | none =>
      rw [hto] at h
      exact Option.noConfusion h
    | some u2 =>
      rw [hto] at h
      dsimp only at h
      simp only [Option.some.injEq] at h
      subst h
      rw [traverse_yaml_tree.eq_def]
      dsimp only
      rw [hto]
  | bool b =>
    dsimp only at h
    cases hto : travOther (.bool b) c with
    | none =>
      rw [hto] at h
      exact Option.noConfusion h
    | some u2 =>
      rw [hto] at h
      dsimp only at h
      simp only [Option.some.injEq] at h
      subst h
      rw [traverse_yaml_tree.eq_def]
      dsimp only
      rw [hto]
  | int n =>
    dsimp only at h
    cases hto : travOther (.int n) c with
    | none =>
      rw [hto] at h
      exact Option.noConfusion h
    | some u2 =>
      rw [hto] at h
      dsimp only at h
      simp only [Option.some.injEq] at h
      subst h
      rw [traverse_yaml_tree.eq_def]
      dsimp only
      rw [hto]
  | str s2 =>
    dsimp only at h
    cases hto : travOther (.str s2) c with
    | none =>
      rw [hto] at h
      exact Option.noConfusion h
    | some u2 =>
      rw [hto] at h
      dsimp only at h
      simp only [Option.some.injEq] at h
      subst h
      rw [traverse_yaml_tree.eq_def]
      dsimp only
      rw [hto]
  | list vs =>
    dsimp only at h
    cases hto : travOther (.list vs) c with
    | none =>
      rw [hto] at h
      exact Option.noConfusion h
    | some u2 =>
      rw [hto] at h
      dsimp only at h
      simp only [Option.some.injEq] at h
      subst h
      rw [traverse_yaml_tree.eq_def]
      dsimp only
      rw [hto]

/-- C7 (amended) at a concrete input: adding `{"b": {"c": 2}}` to the
target `{"a": 1}` succeeds, and re-applying the same change-set to the
result leaves it unchanged. -/
theorem C7_amended_idempotent_witness :
    NiceCE [("b".toList, Val.dict [("c".toList, Val.int 2)])] = true
    ∧ traverse_yaml_tree (.dict [("a".toList, .int 1)])
        [("b".toList, .dict [("c".toList, .int 2)])]
      = some (.dict [("a".toList, .int 1), ("b".toList, .dict [("c".toList, .int 2)])])
    ∧ traverse_yaml_tree
        (.dict [("a".toList, .int 1), ("b".toList, .dict [("c".toList, .int 2)])])
        [("b".toList, .dict [("c".toList, .int 2)])]
      = some (.dict [("a".toList, .int 1), ("b".toList, .dict [("c".toList, .int 2)])]) :=
  ⟨by decide, by decide,
    C7_amended_idempotent (.dict [("a".toList, .int 1)])
      [("b".toList, .dict [("c".toList, .int 2)])]
      (.dict [("a".toList, .int 1), ("b".toList, .dict [("c".toList, .int 2)])])
      (by decide) (by decide)⟩

/-- Is `a` an initial segment of `b` (on key paths)? -/
def pfxOf : List PyStr → List PyStr → Bool
  | [], _ => true
  | _ :: _, [] => false
  | a :: as, b :: bs => a == b && pfxOf as bs

mutual

/-- The root-to-leaf paths of a value: a non-dict value is itself a leaf
(with an empty path); a dict contributes its entries' leaves. -/
def leavesV : Val → List (List PyStr × Val)
  | .dict es => leavesE es
  | v => [([], v)]

/-- The root-to-leaf paths of dict entries, in order. -/
def leavesE : Entries → List (List PyStr × Val)
  | [] => []
  | (k, v) :: rest =>
    (leavesV v).map (fun q => (k :: q.1, q.2)) ++ leavesE rest

end

mutual

/-- A well-formed reconstruction tree: keys unique at every dict level
and no empty dict values (`_unflatten` only ever builds such trees). -/
def WFT : Val → Bool
  | .dict es => !es.isEmpty && WFTE es
  | _ => true

/-- `WFT` on dict entries. -/
def WFTE : Entries → Bool
  | [] => true
  | (k, v) :: rest => (lookupA rest k).isNone && WFT v && WFTE rest

end

/-- A flatten-safe key for the given separator: non-empty, free of single
and double quotes, and not containing the separator (so `_flatten` never
quotes it and `quoted_split` undoes the join exactly). -/
def niceKeyB (sep : PyStr) (k : PyStr) : Bool :=
  !k.isEmpty && !k.contains dq && !k.contains sq && !hasSub sep k

mutual

/-- A mapping that survives the flatten/unflatten round trip: every key
at every dict level is flatten-safe and unique, and no dict value is
empty (`_flatten` silently drops empty dicts).  Lists are opaque to the
round trip and may contain anything. -/
def NiceRT (sep : PyStr) : Val → Bool
  | .dict es => !es.isEmpty && NiceRTE sep es
  | _ => true

/-- `NiceRT` on dict entries. -/
def NiceRTE (sep : PyStr) : Entries → Bool
  | [] => true
  | (k, v) :: rest =>
    niceKeyB sep k && (lookupA rest k).isNone && NiceRT sep v && NiceRTE sep rest

end

/-- Structural equality of values up to re-ordering of dict keys
(Python `==` on parsed JSON-like objects), with a recursion budget:
dicts compare by key lookup, everything else compares structurally. -/
def vequivF : Nat → Val → Val → Bool
  | 0, _, _ => false
  | fuel+1, .dict es1, .dict es2 =>
    (es1.all fun p =>
      match lookupA es2 p.1 with
      | none => false
      | some v2 => vequivF fuel p.2 v2)
    && (es2.all fun p => (lookupA es1 p.1).isSome)
  | _+1, a, b => Val.beq a b

/-- `vequivF` with a sufficient budget. -/
def vequiv (a b : Val) : Bool := vequivF (Val.weight a + Val.weight b) a b

/-- The `_unflatten` loop over a prepared list of (key path, value)
pairs. -/
def insertAll (S : List (List PyStr × Val)) (acc : Entries) : Option Entries :=
  S.foldlM (fun a q => insertPath a q.1 q.2) acc

theorem joinSep_append_last (sep : PyStr) (xs : List PyStr) (y : PyStr)
    (hxs : xs ≠ []) :
    joinSep sep (xs ++ [y]) = joinSep sep xs ++ sep ++ y := by
  induction xs with
  | nil => exact absurd rfl hxs
  | cons x xs ih =>
    cases xs with
    | nil => simp [joinSep]
    | cons z zs =>
      have h2 := ih (by simp)
      simp only [List.cons_append] at h2 ⊢
      rw [joinSep, h2, joinSep]
      simp [List.append_assoc]

theorem joinSep_ne_nil (sep : PyStr) (p : List PyStr) (hp : p ≠ [])
    (hseg : ∀ x ∈ p, x ≠ []) : joinSep sep p ≠ [] := by
  cases p with
  | nil => exact absurd rfl hp
  | cons x xs =>
    cases xs with
    | nil => exact hseg x (by simp)
    | cons y ys =>
      rw [joinSep]
      intro he
      rcases List.append_eq_nil.mp (List.append_eq_nil.mp he).1 with ⟨hx, _⟩
      exact hseg x (by simp) hx

theorem newKey_nice (sep : PyStr) (pre : List PyStr) (k : PyStr)
    (hk : hasSub sep k = false) (hseg : ∀ x ∈ pre, x ≠ []) :
    newKey sep (joinSep sep pre) k = joinSep sep (pre ++ [k]) := by
  cases pre with
  | nil => simp [newKey, joinSep, hk]
  | cons x xs =>
    have hne : joinSep sep (x :: xs) ≠ [] :=
      joinSep_ne_nil sep (x :: xs) (by simp) hseg
    rw [newKey]
    simp only [hk]
    rw [if_neg (by simpa [List.isEmpty_iff] using hne)]
    rw [joinSep_append_last sep (x :: xs) k (by simp)]
    simp

theorem joinSep_inj (sep : PyStr) (hsep : sep ≠ [])
    (hov : overlapFreeB sep = true) (p q : List PyStr) (hp : p ≠ [])
    (hq : q ≠ []) (hpf : ∀ x ∈ p, hasSub sep x = false)
    (hqf : ∀ x ∈ q, hasSub sep x = false)
    (h : joinSep sep p = joinSep sep q) : p = q := by
  have h1 := splitSep_joinSep sep hsep hov p hp hpf
  have h2 := splitSep_joinSep sep hsep hov q hq hqf
  rw [← h1, ← h2, h]

theorem contains_append (a b : PyStr) (c : Char) :
    (a ++ b).contains c = (a.contains c || b.contains c) := by
  induction a with
  | nil => simp
  | cons x xs ih =>
    simp only [List.cons_append, List.contains_cons, ih, Bool.or_assoc]

theorem joinSep_contains (sep : PyStr) (p : List PyStr) (c : Char)
    (hsep : sep.contains c = false) (hseg : ∀ x ∈ p, x.contains c = false) :
    (joinSep sep p).contains c = false := by
  induction p with
  | nil => simp [joinSep]
  | cons x xs ih =>
    cases xs with
    | nil => exact hseg x (by simp)
    | cons y ys =>
      rw [joinSep, contains_append, contains_append]
      rw [hseg x (by simp), hsep, ih (fun z hz => hseg z (by simp [hz]))]
      rfl

theorem quoted_split_noquote (sep s : PyStr) (hd : s.contains dq = false)
    (hs : s.contains sq = false) :
    quoted_split s sep = splitSep sep s := by
  rw [quoted_split, if_pos (by rw [hd, hs]; rfl)]

theorem leavesE_cons (k : PyStr) (v : Val) (rest : Entries) :
    leavesE ((k, v) :: rest)
      = (leavesV v).map (fun q => (k :: q.1, q.2)) ++ leavesE rest := rfl

theorem leavesE_append (a b : Entries) :
    leavesE (a ++ b) = leavesE a ++ leavesE b := by
  induction a with
  | nil => rfl
  | cons p rest ih =>
    obtain ⟨k, v⟩ := p
    simp only [List.cons_append, leavesE_cons, ih, List.append_assoc]

theorem leaves_ne_nil (q : List PyStr × Val) (m : Entries)
    (hq : q ∈ leavesE m) : q.1 ≠ [] := by
  induction m with
  | nil => simp [leavesE] at hq
  | cons p rest ih =>
    obtain ⟨k, v⟩ := p
    rw [leavesE_cons] at hq
    rcases List.mem_append.mp hq with hl | hr
    · rcases List.mem_map.mp hl with ⟨q0, _, he⟩
      rw [← he]
      simp
    · exact ih hr

theorem leaves_head_isSome (k : PyStr) (tl : List PyStr) (w : Val)
    (m : Entries) (hq : (k :: tl, w) ∈ leavesE m) :
    (lookupA m k).isSome = true := by
  induction m with
  | nil => simp [leavesE] at hq
  | cons p rest ih =>
    obtain ⟨k1, v1⟩ := p
    rw [leavesE_cons] at hq
    rcases List.mem_append.mp hq with hl | hr
    · rcases List.mem_map.mp hl with ⟨q0, _, he⟩
      have hk : k1 = k := by
        have := congrArg Prod.fst he
        simp at this
        exact this.1
      simp [lookupA, hk]
    · by_cases hk : k1 = k
      · simp [lookupA, hk]
      · simp only [lookupA, hk, if_false]
        exact ih hr

theorem lookupA_eq_none_iff {α : Type} (m : List (PyStr × α)) (k : PyStr) :
    lookupA m k = none ↔ k ∉ m.map Prod.fst := by
  induction m with
  | nil => simp [lookupA]
  | cons p rest ih =>
    obtain ⟨k1, v1⟩ := p
    by_cases hk : k1 = k
    · subst hk
      constructor
      · intro h
        simp [lookupA] at h
      · intro h
        exact absurd (List.mem_map.mpr ⟨(k1, v1), by simp, rfl⟩) h
    · simp only [lookupA, hk, if_false, List.map_cons, List.mem_cons, ih]
      constructor
      · intro h1 h2
        rcases h2 with h2 | h2
        · exact hk h2.symm
        · exact h1 h2
      · intro h1 h2
        exact h1 (Or.inr h2)

theorem mem_lookup_of_nodup {α : Type} (m : List (PyStr × α))
    (p : PyStr × α) (hnd : (m.map Prod.fst).Nodup) (hm : p ∈ m) :
    lookupA m p.1 = some p.2 := by
  induction m with
  | nil => simp at hm
  | cons q rest ih =>
    obtain ⟨k1, v1⟩ := q
    simp only [List.map_cons, List.nodup_cons] at hnd
    rcases List.mem_cons.mp hm with he | ht
    · subst he
      simp [lookupA]
    · by_cases hk : k1 = p.1
      · exfalso
        apply hnd.1
        rw [hk]
        exact List.mem_map.mpr ⟨p, ht, rfl⟩
      · simp only [lookupA, hk, if_false]
        exact ih hnd.2 ht

theorem lookupA_append {α : Type} (a b : List (PyStr × α)) (k : PyStr) :
    lookupA (a ++ b) k
      = match lookupA a k with
        | some v => some v
        | none => lookupA b k := by
  induction a with
  | nil => simp [lookupA]
  | cons p rest ih =>
    obtain ⟨k1, v1⟩ := p
    by_cases hk : k1 = k
    · simp [lookupA, hk]
    · simp [lookupA, hk, ih]

theorem updateA_append_of_none {α : Type} (m : List (PyStr × α)) (k : PyStr)
    (v : α) (h : lookupA m k = none) : updateA m k v = m ++ [(k, v)] := by
  induction m with
  | nil => rfl
  | cons p rest ih =>
    obtain ⟨k1, v1⟩ := p
    by_cases hk : k1 = k
    · simp [lookupA, hk] at h
    · simp only [lookupA, hk, if_false] at h
      simp [updateA, hk, ih h]

theorem updAll_disjoint (new : Entries) : ∀ acc : Entries,
    (new.map Prod.fst).Nodup → (∀ p ∈ new, lookupA acc p.1 = none) →
    updAll acc new = acc ++ new := by
  induction new with
  | nil =>
    intro acc hnd hdis
    simp [updAll]
  | cons p rest ih =>
    intro acc hnd hdis
    simp only [List.map_cons, List.nodup_cons] at hnd
    have hlater : ∀ q ∈ rest, lookupA (acc ++ [(p.1, p.2)]) q.1 = none := by
      intro q hq
      have hne : ¬ p.1 = q.1 := by
        intro he
        exact hnd.1 (List.mem_map.mpr ⟨q, hq, he.symm⟩)
      rw [lookupA_append, hdis q (by simp [hq])]
      simp [lookupA, hne]
    have h1 : updAll acc (p :: rest) = updAll (updateA acc p.1 p.2) rest := rfl
    rw [h1, updateA_append_of_none acc p.1 p.2 (hdis p (by simp))]
    rw [ih (acc ++ [(p.1, p.2)]) hnd.2 hlater]
    simp

theorem lastVal_not_mem (rest : Entries) (k : PyStr) :
    ∀ d : Val, k ∉ rest.map Prod.fst → lastVal rest k d = d := by
  induction rest with
  | nil => intro d _; rfl
  | cons p r ih =>
    intro d hk
    obtain ⟨k1, v1⟩ := p
    simp only [List.map_cons, List.mem_cons] at hk
    push_neg at hk
    rw [lastVal, if_neg (fun h => hk.1 h.symm)]
    exact ih d hk.2

theorem dedupItemsF_id (m : Entries) : ∀ fuel : Nat, m.length ≤ fuel →
    (m.map Prod.fst).Nodup → dedupItemsF fuel m = m := by
  induction m with
  | nil =>
    intro fuel _ _
    cases fuel <;> rfl
  | cons p rest ih =>
    intro fuel hf hnd
    obtain ⟨k, v⟩ := p
    simp only [List.map_cons, List.nodup_cons] at hnd
    cases fuel with
    | zero => simp at hf
    | succ f =>
      rw [dedupItemsF, lastVal_not_mem rest k v hnd.1]
      rw [List.filter_eq_self.mpr ?filt]
      · rw [ih f (by simpa using hf) hnd.2]
      case filt =>
        intro q hq
        simp only [decide_not, Bool.not_eq_eq_eq_not, Bool.not_true,
          decide_eq_false_iff_not]
        intro he
        exact hnd.1 (he ▸ List.mem_map.mpr ⟨q, hq, rfl⟩)

theorem dedupItems_id (m : Entries) (hnd : (m.map Prod.fst).Nodup) :
    dedupItems m = m := dedupItemsF_id m m.length (le_refl _) hnd

theorem pfxOf_refl (a : List PyStr) : pfxOf a a = true := by
  induction a with
  | nil => rfl
  | cons x xs ih => simp [pfxOf, ih]

theorem niceRTE_cons (sep : PyStr) (p : PyStr × Val) (rest : Entries)
    (hn : NiceRTE sep (p :: rest) = true) :
    niceKeyB sep p.1 = true ∧ (lookupA rest p.1).isNone = true
    ∧ NiceRT sep p.2 = true ∧ NiceRTE sep rest = true := by
  obtain ⟨k, v⟩ := p
  simp only [NiceRTE, Bool.and_eq_true] at hn
  exact ⟨hn.1.1.1, hn.1.1.2, hn.1.2, hn.2⟩

theorem leavesE_cons2 (p : PyStr × Val) (rest : Entries) :
    leavesE (p :: rest)
      = (leavesV p.2).map (fun q => (p.1 :: q.1, q.2)) ++ leavesE rest := by
  obtain ⟨k, v⟩ := p
  rfl

mutual

theorem niceRT_leavesV (sep : PyStr) (v : Val) (hn : NiceRT sep v = true) :
    ∀ q ∈ leavesV v,
      (∀ x ∈ q.1, niceKeyB sep x = true) ∧ leavesV q.2 = [([], q.2)] := by
  cases v with
  | dict es =>
    have hnE : NiceRTE sep es = true := by
      simp only [NiceRT, Bool.and_eq_true] at hn
      exact hn.2
    intro q hq
    have h := niceRTE_leavesE sep es hnE q hq
    exact ⟨h.2.1, h.2.2⟩
  | null =>
    intro q hq
    simp only [leavesV, List.mem_singleton] at hq
    subst hq
    exact ⟨by simp, rfl⟩
  | bool b =>
    intro q hq
    simp only [leavesV, List.mem_singleton] at hq
    subst hq
    exact ⟨by simp, rfl⟩
  | int n =>
    intro q hq
    simp only [leavesV, List.mem_singleton] at hq
    subst hq
    exact ⟨by simp, rfl⟩
  | str s =>
    intro q hq
    simp only [leavesV, List.mem_singleton] at hq
    subst hq
    exact ⟨by simp, rfl⟩
  | list xs =>
    intro q hq
    simp only [leavesV, List.mem_singleton] at hq
    subst hq
    exact ⟨by simp, rfl⟩
termination_by Val.weight v
decreasing_by
  all_goals subst_vars
  all_goals simp [Val.weight, Val.weightE, Val.weightL, weightE_cons]

theorem niceRTE_leavesE (sep : PyStr) (d : Entries) (hn : NiceRTE sep d = true) :
    ∀ q ∈ leavesE d, q.1 ≠ []
      ∧ (∀ x ∈ q.1, niceKeyB sep x = true) ∧ leavesV q.2 = [([], q.2)] := by
  cases d with
  | nil =>
    intro q hq
    simp [leavesE] at hq
  | cons p rest =>
    obtain ⟨hkey, hnone, hval, hrest⟩ := niceRTE_cons sep p rest hn
    intro q hq
    rw [leavesE_cons2] at hq
    rcases List.mem_append.mp hq with hl | hr
    · rcases List.mem_map.mp hl with ⟨q0, hq0, he⟩
      have h0 := niceRT_leavesV sep p.2 hval q0 hq0
      subst he
      refine ⟨by simp, ?_, h0.2⟩
      intro x hx
      rcases List.mem_cons.mp hx with hx | hx
      · rw [hx]
        exact hkey
      · exact h0.1 x hx
    · exact niceRTE_leavesE sep rest hrest q hr
termination_by Val.weightE d
decreasing_by
  all_goals subst_vars
  all_goals simp [Val.weight, Val.weightE, Val.weightL, weightE_cons]
  all_goals omega

end

theorem pfxOf_cons_same (x : PyStr) (as bs : List PyStr) :
    pfxOf (x :: as) (x :: bs) = pfxOf as bs := by
  simp [pfxOf]

theorem pfxOf_cons_ne (x y : PyStr) (as bs : List PyStr) (h : ¬ x = y) :
    pfxOf (x :: as) (y :: bs) = false := by
  rw [pfxOf, beq_eq_false_iff_ne.mpr h, Bool.false_and]

theorem niceKeyB_parts (sep k : PyStr) (h : niceKeyB sep k = true) :
    k ≠ [] ∧ k.contains dq = false ∧ k.contains sq = false
    ∧ hasSub sep k = false := by
  simp only [niceKeyB, Bool.and_eq_true, Bool.not_eq_true'] at h
  obtain ⟨⟨⟨h1, h2⟩, h3⟩, h4⟩ := h
  refine ⟨?_, h2, h3, h4⟩
  intro he
  subst he
  simp at h1

mutual

theorem niceRT_pairV (sep : PyStr) (v : Val) (hn : NiceRT sep v = true) :
    (leavesV v).Pairwise
      (fun a b => pfxOf a.1 b.1 = false ∧ pfxOf b.1 a.1 = false) := by
  cases v with
  | dict es =>
    have hnE : NiceRTE sep es = true := by
      simp only [NiceRT, Bool.and_eq_true] at hn
      exact hn.2
    exact niceRTE_pairE sep es hnE
  | null => simp [leavesV]
  | bool b => simp [leavesV]
  | int n => simp [leavesV]
  | str s => simp [leavesV]
  | list xs => simp [leavesV]
termination_by Val.weight v
decreasing_by
  all_goals subst_vars
  all_goals simp [Val.weight, Val.weightE, Val.weightL, weightE_cons]

theorem niceRTE_pairE (sep : PyStr) (d : Entries) (hn : NiceRTE sep d = true) :
    (leavesE d).Pairwise
      (fun a b => pfxOf a.1 b.1 = false ∧ pfxOf b.1 a.1 = false) := by
  cases d with
  | nil => simp [leavesE]
  | cons p rest =>
    obtain ⟨hkey, hnone, hval, hrest⟩ := niceRTE_cons sep p rest hn
    rw [leavesE_cons2]
    rw [List.pairwise_append]
    refine ⟨?_, niceRTE_pairE sep rest hrest, ?_⟩
    · rw [List.pairwise_map]
      have hp := niceRT_pairV sep p.2 hval
      refine hp.imp ?_
      intro a b hab
      constructor
      · rw [pfxOf_cons_same]
        exact hab.1
      · rw [pfxOf_cons_same]
        exact hab.2
    · intro a ha b hb
      rcases List.mem_map.mp ha with ⟨a0, ha0, hea⟩
      have ha1 : a.1 = p.1 :: a0.1 := by rw [← hea]
      have hb1 : b.1 ≠ [] := leaves_ne_nil b rest hb
      cases hcb : b.1 with
      | nil => exact absurd hcb hb1
      | cons k2 tl =>
        have hsome : (lookupA rest k2).isSome = true := by
          apply leaves_head_isSome k2 tl b.2 rest
          rw [← hcb]
          exact hb
        have hne : ¬ p.1 = k2 := by
          intro he
          rw [Option.isNone_iff_eq_none] at hnone
          rw [he] at hnone
          rw [hnone] at hsome
          simp at hsome
        constructor
        · rw [ha1]
          exact pfxOf_cons_ne _ _ _ _ hne
        · rw [ha1]
          exact pfxOf_cons_ne _ _ _ _ (fun h2 => hne h2.symm)
termination_by Val.weightE d
decreasing_by
  all_goals subst_vars
  all_goals simp [Val.weight, Val.weightE, Val.weightL, weightE_cons]
  all_goals omega

end

theorem leaf_paths_pairwise_ne (sep : PyStr) (d : Entries)
    (hn : NiceRTE sep d = true) :
    (leavesE d).Pairwise (fun a b => a.1 ≠ b.1) := by
  refine (niceRTE_pairE sep d hn).imp ?_
  intro a b hab he
  rw [he, pfxOf_refl] at hab
  exact absurd hab.1 (by simp)

theorem flat_keys_nodup (sep : PyStr) (hsep : sep ≠ [])
    (hov : overlapFreeB sep = true) (d : Entries) (hn : NiceRTE sep d = true) :
    ((leavesE d).map (fun q => joinSep sep q.1)).Nodup := by
  show ((leavesE d).map (fun q => joinSep sep q.1)).Pairwise (fun a b => a ≠ b)
  rw [List.pairwise_map]
  refine List.Pairwise.imp_of_mem ?_ (leaf_paths_pairwise_ne sep d hn)
  intro a b ha hb hab he
  apply hab
  have hna := niceRTE_leavesE sep d hn a ha
  have hnb := niceRTE_leavesE sep d hn b hb
  exact joinSep_inj sep hsep hov a.1 b.1 hna.1 hnb.1
    (fun x hx => (niceKeyB_parts sep x (hna.2.1 x hx)).2.2.2)
    (fun x hx => (niceKeyB_parts sep x (hnb.2.1 x hx)).2.2.2) he

theorem flattenItems_cons2 (sep : PyStr) (ext : Bool) (p : PyStr × Val)
    (rest : Entries) (parent : PyStr) (L : ListsState) :
    flattenItems sep ext (p :: rest) parent L
      = ((flattenOne sep ext p.2 (newKey sep parent p.1) L).1
           ++ (flattenItems sep ext rest parent
                (flattenOne sep ext p.2 (newKey sep parent p.1) L).2).1,
         (flattenItems sep ext rest parent
           (flattenOne sep ext p.2 (newKey sep parent p.1) L).2).2) := by
  obtain ⟨k, v⟩ := p
  rfl

theorem delta_key_mem (sep : PyStr) (nkp : List PyStr)
    (leaves : List (List PyStr × Val)) (x : PyStr × List Val)
    (hx : x ∈ leaves.filterMap (fun q =>
      match q.2 with
      | .list xs => some (joinSep sep (nkp ++ q.1), xs)
      | _ => none)) :
    ∃ q0 ∈ leaves, x.1 = joinSep sep (nkp ++ q0.1) := by
  rcases List.mem_filterMap.mp hx with ⟨q0, hq0, heq⟩
  refine ⟨q0, hq0, ?_⟩
  cases hv : q0.2 with
  | list xs =>
    rw [hv] at heq
    simp only [Option.some.injEq] at heq
    rw [← heq]
  | null => rw [hv] at heq; exact Option.noConfusion heq
  | bool b => rw [hv] at heq; exact Option.noConfusion heq
  | int n => rw [hv] at heq; exact Option.noConfusion heq
  | str s2 => rw [hv] at heq; exact Option.noConfusion heq
  | dict es => rw [hv] at heq; exact Option.noConfusion heq

theorem flat_keys_nodup_pre (sep : PyStr) (hsep : sep ≠ [])
    (hov : overlapFreeB sep = true) (d : Entries) (hn : NiceRTE sep d = true)
    (pre : List PyStr) (hpre : ∀ x ∈ pre, niceKeyB sep x = true) :
    ((leavesE d).map (fun q => joinSep sep (pre ++ q.1))).Nodup := by
  show ((leavesE d).map (fun q => joinSep sep (pre ++ q.1))).Pairwise
    (fun a b => a ≠ b)
  rw [List.pairwise_map]
  refine List.Pairwise.imp_of_mem ?_ (leaf_paths_pairwise_ne sep d hn)
  intro a b ha hb hab he
  apply hab
  have hna := niceRTE_leavesE sep d hn a ha
  have hnb := niceRTE_leavesE sep d hn b hb
  have h2 : pre ++ a.1 = pre ++ b.1 := by
    apply joinSep_inj sep hsep hov _ _ ?_ ?_ ?_ ?_ he
    · intro hnil
      rcases List.append_eq_nil.mp hnil with ⟨_, hnil2⟩
      exact hna.1 hnil2
    · intro hnil
      rcases List.append_eq_nil.mp hnil with ⟨_, hnil2⟩
      exact hnb.1 hnil2
    · intro x hx
      rcases List.mem_append.mp hx with hx | hx
      · exact (niceKeyB_parts sep x (hpre x hx)).2.2.2
      · exact (niceKeyB_parts sep x (hna.2.1 x hx)).2.2.2
    · intro x hx
      rcases List.mem_append.mp hx with hx | hx
      · exact (niceKeyB_parts sep x (hpre x hx)).2.2.2
      · exact (niceKeyB_parts sep x (hnb.2.1 x hx)).2.2.2
  exact List.append_cancel_left h2

mutual

theorem flattenOne_leaves (sep : PyStr) (hsep : sep ≠ [])
    (hov : overlapFreeB sep = true) (v : Val) (hn : NiceRT sep v = true) :
    ∀ (nkp : List PyStr) (L : ListsState), nkp ≠ [] →
    (∀ x ∈ nkp, niceKeyB sep x = true) →
    (∀ q ∈ leavesV v, lookupA L (joinSep sep (nkp ++ q.1)) = none) →
    flattenOne sep true v (joinSep sep nkp) L
      = ((leavesV v).map (fun q => (joinSep sep (nkp ++ q.1), q.2)),
         L ++ (leavesV v).filterMap (fun q =>
           match q.2 with
           | .list xs => some (joinSep sep (nkp ++ q.1), xs)
           | _ => none)) := by
  cases v with
  | null =>
    intro nkp L hne hnice hfresh
    rw [flattenOne.eq_def]
    dsimp only
    simp [leavesV]
  | bool b =>
    intro nkp L hne hnice hfresh
    rw [flattenOne.eq_def]
    dsimp only
    simp [leavesV]
  | int n =>
    intro nkp L hne hnice hfresh
    rw [flattenOne.eq_def]
    dsimp only
    simp [leavesV]
  | str s2 =>
    intro nkp L hne hnice hfresh
    rw [flattenOne.eq_def]
    dsimp only
    simp [leavesV]
  | list xs =>
    intro nkp L hne hnice hfresh
    have hfr : lookupA L (joinSep sep nkp) = none := by
      have := hfresh ([], .list xs) (by simp [leavesV])
      simpa using this
    rw [flattenOne.eq_def]
    dsimp only
    rw [if_pos rfl]
    rw [hfr]
    simp only [Option.getD_none, List.nil_append]
    rw [updateA_append_of_none L (joinSep sep nkp) xs hfr]
    simp [leavesV]
  | dict es =>
    intro nkp L hne hnice hfresh
    have hnE : NiceRTE sep es = true := by
      simp only [NiceRT, Bool.and_eq_true] at hn
      exact hn.2
    have hnd : (((leavesE es).map
        (fun q => (joinSep sep (nkp ++ q.1), q.2))).map Prod.fst).Nodup := by
      rw [List.map_map]
      exact flat_keys_nodup_pre sep hsep hov es hnE nkp hnice
    rw [flattenOne.eq_def]
    dsimp only
    rw [flattenItems_leaves sep hsep hov es hnE nkp L hnice
      (fun q hq => hfresh q hq)]
    dsimp only
    rw [dedupItems_id _ hnd]
    rfl
termination_by Val.weight v
decreasing_by
  all_goals subst_vars
  all_goals simp [Val.weight, Val.weightE, Val.weightL, weightE_cons]

theorem flattenItems_leaves (sep : PyStr) (hsep : sep ≠ [])
    (hov : overlapFreeB sep = true) (d : Entries) (hn : NiceRTE sep d = true) :
    ∀ (pre : List PyStr) (L : ListsState),
    (∀ x ∈ pre, niceKeyB sep x = true) →
    (∀ q ∈ leavesE d, lookupA L (joinSep sep (pre ++ q.1)) = none) →
    flattenItems sep true d (joinSep sep pre) L
      = ((leavesE d).map (fun q => (joinSep sep (pre ++ q.1), q.2)),
         L ++ (leavesE d).filterMap (fun q =>
           match q.2 with
           | .list xs => some (joinSep sep (pre ++ q.1), xs)
           | _ => none)) := by
  cases d with
  | nil =>
    intro pre L hpre hfresh
    rw [flattenItems.eq_def]
    dsimp only
    simp [leavesE]
  | cons p rest =>
    intro pre L hpre hfresh
    obtain ⟨hkey, hnone, hval, hrest⟩ := niceRTE_cons sep p rest hn
    have hkparts := niceKeyB_parts sep p.1 hkey
    have hnk : newKey sep (joinSep sep pre) p.1 = joinSep sep (pre ++ [p.1]) :=
      newKey_nice sep pre p.1 hkparts.2.2.2
        (fun x hx => (niceKeyB_parts sep x (hpre x hx)).1)
    have hnice2 : ∀ x ∈ pre ++ [p.1], niceKeyB sep x = true := by
      intro x hx
      rcases List.mem_append.mp hx with hx | hx
      · exact hpre x hx
      · rw [List.mem_singleton.mp hx]
        exact hkey
    have hmem1 : ∀ q0 ∈ leavesV p.2, (p.1 :: q0.1, q0.2) ∈ leavesE (p :: rest) := by
      intro q0 hq0
      rw [leavesE_cons2]
      exact List.mem_append.mpr (Or.inl (List.mem_map.mpr ⟨q0, hq0, rfl⟩))
    have hassoc : ∀ q0 : List PyStr × Val,
        (pre ++ [p.1]) ++ q0.1 = pre ++ (p.1 :: q0.1) := by
      intro q0
      rw [← List.append_cons]
    have hfresh1 : ∀ q0 ∈ leavesV p.2,
        lookupA L (joinSep sep ((pre ++ [p.1]) ++ q0.1)) = none := by
      intro q0 hq0
      rw [hassoc q0]
      exact hfresh (p.1 :: q0.1, q0.2) (hmem1 q0 hq0)
    rw [flattenItems_cons2, hnk]
    rw [flattenOne_leaves sep hsep hov p.2 hval (pre ++ [p.1]) L
      (by simp) hnice2 hfresh1]
    dsimp only
    have hfresh2 : ∀ q ∈ leavesE rest,
        lookupA (L ++ (leavesV p.2).filterMap (fun q =>
          match q.2 with
          | .list xs => some (joinSep sep ((pre ++ [p.1]) ++ q.1), xs)
          | _ => none)) (joinSep sep (pre ++ q.1)) = none := by
      intro q hq
      rw [lookupA_append]
      rw [hfresh q (by rw [leavesE_cons2]; exact List.mem_append.mpr (Or.inr hq))]
      rw [lookupA_eq_none_iff]
      intro hmem
      rcases List.mem_map.mp hmem with ⟨x, hxmem, hxkey⟩
      rcases delta_key_mem sep (pre ++ [p.1]) (leavesV p.2) x hxmem
        with ⟨q0, hq0, hxk⟩
      rw [hxk] at hxkey
      rw [hassoc q0] at hxkey
      have hqn := niceRTE_leavesE sep (p :: rest) hn q
        (by rw [leavesE_cons2]; exact List.mem_append.mpr (Or.inr hq))
      have hq0n := niceRTE_leavesE sep (p :: rest) hn (p.1 :: q0.1, q0.2)
        (hmem1 q0 hq0)
      have heqp : pre ++ (p.1 :: q0.1) = pre ++ q.1 := by
        apply joinSep_inj sep hsep hov _ _ ?_ ?_ ?_ ?_ hxkey
        · simp
        · intro hnil
          rcases List.append_eq_nil.mp hnil with ⟨_, hnil2⟩
          exact hqn.1 hnil2
        · intro x2 hx2
          rcases List.mem_append.mp hx2 with hx2 | hx2
          · exact (niceKeyB_parts sep x2 (hpre x2 hx2)).2.2.2
          · exact (niceKeyB_parts sep x2 (hq0n.2.1 x2 hx2)).2.2.2
        · intro x2 hx2
          rcases List.mem_append.mp hx2 with hx2 | hx2
          · exact (niceKeyB_parts sep x2 (hpre x2 hx2)).2.2.2
          · exact (niceKeyB_parts sep x2 (hqn.2.1 x2 hx2)).2.2.2
      have hq1 : q.1 = p.1 :: q0.1 := (List.append_cancel_left heqp).symm
      have hsome : (lookupA rest p.1).isSome = true := by
        apply leaves_head_isSome p.1 q0.1 q.2 rest
        rw [← hq1]
        exact hq
      rw [Option.isNone_iff_eq_none] at hnone
      rw [hnone] at hsome
      simp at hsome
    rw [flattenItems_leaves sep hsep hov rest hrest pre _ hpre hfresh2]
    dsimp only
    rw [leavesE_cons2]
    rw [List.map_append, List.map_map, List.filterMap_append, List.filterMap_map]
    have h1 : (leavesV p.2).map
        (fun q => (joinSep sep ((pre ++ [p.1]) ++ q.1), q.2))
        = (leavesV p.2).map ((fun q : List PyStr × Val =>
            (joinSep sep (pre ++ q.1), q.2))
          ∘ (fun q : List PyStr × Val => (p.1 :: q.1, q.2))) := by
      apply List.map_congr_left
      intro q0 hq0
      simp only [Function.comp]
      rw [hassoc q0]
    have h2 : (leavesV p.2).filterMap (fun q =>
        match q.2 with
        | .list xs => some (joinSep sep ((pre ++ [p.1]) ++ q.1), xs)
        | _ => none)
        = (leavesV p.2).filterMap ((fun q : List PyStr × Val =>
            match q.2 with
            | .list xs => some (joinSep sep (pre ++ q.1), xs)
            | _ => none)
          ∘ (fun q : List PyStr × Val => (p.1 :: q.1, q.2))) := by
      apply List.filterMap_congr
      intro q0 hq0
      simp only [Function.comp]
      cases hv : q0.2 with
      | list xs => rw [hassoc q0]
      | null => rfl
      | bool b => rfl
      | int n => rfl
      | str s2 => rfl
      | dict es => rfl
    rw [← h1, ← h2, List.append_assoc]
termination_by Val.weightE d
decreasing_by
  all_goals subst_vars
  all_goals simp [Val.weight, Val.weightE, Val.weightL, weightE_cons]
  all_goals omega

end

theorem updateA_cons2 {α : Type} (p : PyStr × α) (rest : List (PyStr × α))
    (k : PyStr) (v : α) :
    updateA (p :: rest) k v
      = if p.1 = k then (p.1, v) :: rest else p :: updateA rest k v := by
  obtain ⟨k1, v1⟩ := p
  rfl

theorem WFTE_cons2 (p : PyStr × Val) (rest : Entries)
    (h : WFTE (p :: rest) = true) :
    (lookupA rest p.1).isNone = true ∧ WFT p.2 = true ∧ WFTE rest = true := by
  obtain ⟨k, v⟩ := p
  simp only [WFTE, Bool.and_eq_true] at h
  exact ⟨h.1.1, h.1.2, h.2⟩

theorem WFTE_lookup (m : Entries) (k : PyStr) (w : Val)
    (hm : WFTE m = true) (h : lookupA m k = some w) : WFT w = true := by
  induction m with
  | nil => simp [lookupA] at h
  | cons p rest ih =>
    obtain ⟨hnone, hwf, hrest⟩ := WFTE_cons2 p rest hm
    obtain ⟨k1, v1⟩ := p
    by_cases hk : k1 = k
    · simp only [lookupA, hk, if_true, Option.some.injEq] at h
      rw [← h]
      exact hwf
    · simp only [lookupA, hk, if_false] at h
      exact ih hrest h

theorem WFTE_updateA (m : Entries) (k : PyStr) (v : Val)
    (hm : WFTE m = true) (hv : WFT v = true) :
    WFTE (updateA m k v) = true := by
  induction m with
  | nil => simp [updateA, WFTE, lookupA, hv]
  | cons p rest ih =>
    obtain ⟨hnone, hwf, hrest⟩ := WFTE_cons2 p rest hm
    rw [updateA_cons2]
    by_cases hk : p.1 = k
    · rw [if_pos hk]
      simp only [WFTE, Bool.and_eq_true]
      exact ⟨⟨hk ▸ hnone, hv⟩, hrest⟩
    · rw [if_neg hk]
      have h1 : WFTE (p :: updateA rest k v)
          = ((lookupA (updateA rest k v) p.1).isNone && WFT p.2
            && WFTE (updateA rest k v)) := by
        obtain ⟨k1, v1⟩ := p
        rfl
      rw [h1]
      rw [lookupA_updateA_ne rest k p.1 v hk]
      simp only [Bool.and_eq_true]
      exact ⟨⟨hnone, hwf⟩, ih hrest⟩

theorem leaf_val_WFT (v : Val) (hv : leavesV v = [([], v)]) : WFT v = true := by
  cases v with
  | dict es =>
    exfalso
    have h1 : (([] : List PyStr), Val.dict es) ∈ leavesE es := by
      rw [show leavesE es = leavesV (Val.dict es) from rfl, hv]
      simp
    exact leaves_ne_nil _ es h1 rfl
  | null => rfl
  | bool b => rfl
  | int n => rfl
  | str s2 => rfl
  | list xs => rfl

mutual

theorem WFT_leaves_ne (v : Val) (h : WFT v = true) : leavesV v ≠ [] := by
  cases v with
  | dict es =>
    simp only [WFT, Bool.and_eq_true] at h
    have hne : es ≠ [] := by
      intro he
      rw [he] at h
      simp at h
    exact WFTE_leaves_ne es h.2 hne
  | null => simp [leavesV]
  | bool b => simp [leavesV]
  | int n => simp [leavesV]
  | str s2 => simp [leavesV]
  | list xs => simp [leavesV]
termination_by Val.weight v
decreasing_by
  all_goals subst_vars
  all_goals simp [Val.weight, Val.weightE, Val.weightL, weightE_cons]

theorem WFTE_leaves_ne (m : Entries) (h : WFTE m = true) (hne : m ≠ []) :
    leavesE m ≠ [] := by
  cases m with
  | nil => exact absurd rfl hne
  | cons p rest =>
    obtain ⟨hnone, hwf, hrest⟩ := WFTE_cons2 p rest h
    rw [leavesE_cons2]
    intro he
    rcases List.append_eq_nil.mp he with ⟨h1, _⟩
    exact WFT_leaves_ne p.2 hwf (List.map_eq_nil.mp h1)
termination_by Val.weightE m
decreasing_by
  all_goals subst_vars
  all_goals simp [Val.weight, Val.weightE, Val.weightL, weightE_cons]
  all_goals omega

end

theorem leavesE_updateA_none (m : Entries) (k : PyStr) (v : Val)
    (h : lookupA m k = none) :
    leavesE (updateA m k v)
      = leavesE m ++ (leavesV v).map (fun q => (k :: q.1, q.2)) := by
  induction m with
  | nil => simp [updateA, leavesE_cons2, leavesE]
  | cons p rest ih =>
    rw [updateA_cons2]
    by_cases hk : p.1 = k
    · exfalso
      obtain ⟨k1, v1⟩ := p
      simp only at hk
      rw [hk] at h
      simp [lookupA] at h
    · rw [if_neg hk]
      obtain ⟨k1, v1⟩ := p
      simp only at hk
      simp only [lookupA, hk, if_false] at h
      rw [leavesE_cons, leavesE_cons, ih h, List.append_assoc]

theorem leaves_mem_of_lookup (m : Entries) (k : PyStr) (w : Val)
    (h : lookupA m k = some w) (q : List PyStr × Val) (hq : q ∈ leavesV w) :
    (k :: q.1, q.2) ∈ leavesE m := by
  induction m with
  | nil => simp [lookupA] at h
  | cons p rest ih =>
    obtain ⟨k1, v1⟩ := p
    rw [leavesE_cons]
    by_cases hk : k1 = k
    · simp only [lookupA, hk, if_true, Option.some.injEq] at h
      subst hk
      subst h
      exact List.mem_append.mpr (Or.inl (List.mem_map.mpr ⟨q, hq, rfl⟩))
    · simp only [lookupA, hk, if_false] at h
      exact List.mem_append.mpr (Or.inr (ih h))

theorem leavesE_updateA_dict (m : Entries) (k : PyStr) (sub sub2 : Entries)
    (X : List (List PyStr × Val)) (h : lookupA m k = some (.dict sub))
    (hperm : List.Perm (leavesE sub2) (X ++ leavesE sub)) :
    List.Perm (leavesE (updateA m k (.dict sub2)))
      (X.map (fun q => (k :: q.1, q.2)) ++ leavesE m) := by
  induction m with
  | nil => simp [lookupA] at h
  | cons p rest ih =>
    obtain ⟨k1, v1⟩ := p
    rw [updateA_cons2]
    by_cases hk : k1 = k
    · rw [if_pos hk]
      have hw : v1 = .dict sub := by
        simp only [lookupA, hk, if_true, Option.some.injEq] at h
        exact h
      rw [leavesE_cons, leavesE_cons, hw, hk]
      rw [show leavesV (Val.dict sub) = leavesE sub from rfl]
      rw [show leavesV (Val.dict sub2) = leavesE sub2 from rfl]
      have h1 := hperm.map (fun q => (k :: q.1, q.2))
      rw [List.map_append] at h1
      have h2 := h1.append_right (leavesE rest)
      rw [List.append_assoc] at h2
      exact h2
    · rw [if_neg hk]
      simp only [lookupA, hk, if_false] at h
      rw [leavesE_cons, leavesE_cons]
      have h3 := List.Perm.append_left
        ((leavesV v1).map (fun q => (k1 :: q.1, q.2))) (ih h)
      refine h3.trans ?_
      rw [← List.append_assoc, ← List.append_assoc]
      exact (List.perm_append_comm).append_right _

theorem insertPath_fresh (p : List PyStr) : ∀ v : Val, p ≠ [] →
    leavesV v = [([], v)] →
    ∃ sub, insertPath [] p v = some sub
      ∧ leavesE sub = [(p, v)] ∧ WFTE sub = true := by
  induction p with
  | nil =>
    intro v h _
    exact absurd rfl h
  | cons k tl ih =>
    intro v _ hv
    cases tl with
    | nil =>
      refine ⟨[(k, v)], rfl, ?_, ?_⟩
      · rw [leavesE_cons, hv]
        simp [leavesE]
      · simp [WFTE, lookupA, leaf_val_WFT v hv]
    | cons k2 rest =>
      rcases ih v (by simp) hv with ⟨sub, hins, hleaves, hwf⟩
      have hsubne : sub ≠ [] := by
        intro he
        rw [he] at hleaves
        simp [leavesE] at hleaves
      refine ⟨[(k, .dict sub)], ?_, ?_, ?_⟩
      · simp only [insertPath, lookupA, hins]
        rfl
      · rw [leavesE_cons]
        rw [show leavesV (Val.dict sub) = leavesE sub from rfl, hleaves]
        simp [leavesE]
      · have hshow : WFTE [(k, Val.dict sub)]
            = ((lookupA ([] : Entries) k).isNone && WFT (.dict sub)
              && WFTE []) := rfl
        rw [hshow]
        simp [WFT, lookupA, WFTE, hwf, List.isEmpty_iff, hsubne]

theorem insertPath_leaves (p : List PyStr) : ∀ (m : Entries) (v : Val),
    p ≠ [] → leavesV v = [([], v)] → WFTE m = true →
    (∀ q ∈ leavesE m, pfxOf p q.1 = false ∧ pfxOf q.1 p = false) →
    ∃ m2, insertPath m p v = some m2
      ∧ List.Perm (leavesE m2) ((p, v) :: leavesE m)
      ∧ WFTE m2 = true := by
  induction p with
  | nil =>
    intro m v h _ _ _
    exact absurd rfl h
  | cons k tl ih =>
    intro m v _ hv hwf hcomp
    cases tl with
    | nil =>
      cases hlk : lookupA m k with
      | none =>
        refine ⟨updateA m k v, rfl, ?_,
          WFTE_updateA m k v hwf (leaf_val_WFT v hv)⟩
        rw [leavesE_updateA_none m k v hlk, hv]
        exact List.perm_append_comm
      | some w =>
        exfalso
        have hwfw := WFTE_lookup m k w hwf hlk
        cases hlv : leavesV w with
        | nil => exact WFT_leaves_ne w hwfw hlv
        | cons q0 qrest =>
          have hq0 : q0 ∈ leavesV w := by
            rw [hlv]
            simp
          have hmem := leaves_mem_of_lookup m k w hlk q0 hq0
          have hc := (hcomp (k :: q0.1, q0.2) hmem).1
          simp [pfxOf] at hc
    | cons k2 rest =>
      cases hlk : lookupA m k with
      | none =>
        rcases insertPath_fresh (k2 :: rest) v (by simp) hv
          with ⟨sub, hins, hleaves, hwfs⟩
        have hsubne : sub ≠ [] := by
          intro he
          rw [he] at hleaves
          simp [leavesE] at hleaves
        refine ⟨updateA m k (.dict sub), ?_, ?_, ?_⟩
        · simp only [insertPath, hlk, hins]
        · rw [leavesE_updateA_none m k _ hlk]
          rw [show leavesV (Val.dict sub) = leavesE sub from rfl, hleaves]
          exact List.perm_append_comm
        · apply WFTE_updateA m k _ hwf
          simp only [WFT, Bool.and_eq_true]
          refine ⟨?_, hwfs⟩
          simp [List.isEmpty_iff, hsubne]
      | some w =>
        cases w with
        | dict sub =>
          have hwfw := WFTE_lookup m k _ hwf hlk
          have hwfsub : WFTE sub = true := by
            simp only [WFT, Bool.and_eq_true] at hwfw
            exact hwfw.2
          have hcompsub : ∀ q ∈ leavesE sub,
              pfxOf (k2 :: rest) q.1 = false
              ∧ pfxOf q.1 (k2 :: rest) = false := by
            intro q hq
            have hmem := leaves_mem_of_lookup m k _ hlk q hq
            have hc := hcomp (k :: q.1, q.2) hmem
            constructor
            · have h1 := hc.1
              rwa [pfxOf_cons_same] at h1
            · have h2 := hc.2
              rwa [pfxOf_cons_same] at h2
          rcases ih sub v (by simp) hv hwfsub hcompsub
            with ⟨sub2, hins2, hperm2, hwf2⟩
          refine ⟨updateA m k (.dict sub2), ?_, ?_, ?_⟩
          · simp only [insertPath, hlk, hins2]
          · have hp := leavesE_updateA_dict m k sub sub2 [((k2 :: rest), v)]
              hlk (by simpa using hperm2)
            simpa using hp
          · apply WFTE_updateA m k _ hwf
            have hsubne : sub2 ≠ [] := by
              intro he
              rw [he] at hperm2
              have hl := hperm2.length_eq
              simp [leavesE] at hl
            simp only [WFT, Bool.and_eq_true]
            refine ⟨?_, hwf2⟩
            simp [List.isEmpty_iff, hsubne]
        | null =>
          exfalso
          have hmem := leaves_mem_of_lookup m k _ hlk ([], .null) (by simp [leavesV])
          have hc := (hcomp (k :: [], .null) hmem).2
          simp [pfxOf] at hc
        | bool b =>
          exfalso
          have hmem := leaves_mem_of_lookup m k _ hlk ([], .bool b) (by simp [leavesV])
          have hc := (hcomp (k :: [], .bool b) hmem).2
          simp [pfxOf] at hc
        | int n =>
          exfalso
          have hmem := leaves_mem_of_lookup m k _ hlk ([], .int n) (by simp [leavesV])
          have hc := (hcomp (k :: [], .int n) hmem).2
          simp [pfxOf] at hc
        | str s2 =>
          exfalso
          have hmem := leaves_mem_of_lookup m k _ hlk ([], .str s2) (by simp [leavesV])
          have hc := (hcomp (k :: [], .str s2) hmem).2
          simp [pfxOf] at hc
        | list xs =>
          exfalso
          have hmem := leaves_mem_of_lookup m k _ hlk ([], .list xs) (by simp [leavesV])
          have hc := (hcomp (k :: [], .list xs) hmem).2
          simp [pfxOf] at hc

theorem insertAll_leaves (S : List (List PyStr × Val)) : ∀ acc : Entries,
    (∀ q ∈ S, q.1 ≠ [] ∧ leavesV q.2 = [([], q.2)]) →
    List.Pairwise
      (fun a b => pfxOf a.1 b.1 = false ∧ pfxOf b.1 a.1 = false) S →
    (∀ a ∈ S, ∀ q ∈ leavesE acc,
      pfxOf a.1 q.1 = false ∧ pfxOf q.1 a.1 = false) →
    WFTE acc = true →
    ∃ m, insertAll S acc = some m
      ∧ List.Perm (leavesE m) (S ++ leavesE acc)
      ∧ WFTE m = true := by
  induction S with
  | nil =>
    intro acc _ _ _ hwfacc
    exact ⟨acc, rfl, by simp [List.Perm.refl], hwfacc⟩
  | cons q S2 ih =>
    intro acc hS hpair hacc hwfacc
    rcases List.pairwise_cons.mp hpair with ⟨hq_rel, hpair2⟩
    rcases insertPath_leaves q.1 acc q.2 (hS q (by simp)).1 (hS q (by simp)).2
      hwfacc (hacc q (by simp)) with ⟨m1, hins, hperm1, hwf1⟩
    have hacc2 : ∀ a ∈ S2, ∀ x ∈ leavesE m1,
        pfxOf a.1 x.1 = false ∧ pfxOf x.1 a.1 = false := by
      intro a ha x hx
      have hx2 := hperm1.mem_iff.mp hx
      rcases List.mem_cons.mp hx2 with hx2 | hx2
      · have hr := hq_rel a ha
        rw [hx2]
        exact ⟨hr.2, hr.1⟩
      · exact hacc a (by simp [ha]) x hx2
    rcases ih m1 (fun q2 hq2 => hS q2 (by simp [hq2])) hpair2 hacc2 hwf1
      with ⟨m, hins2, hperm2, hwfm⟩
    refine ⟨m, ?_, ?_, hwfm⟩
    · show (q :: S2).foldlM (fun a q2 => insertPath a q2.1 q2.2) acc = some m
      rw [List.foldlM_cons, hins]
      exact hins2
    · refine hperm2.trans ?_
      have h2 := List.Perm.append_left S2 hperm1
      refine h2.trans ?_
      exact List.perm_middle

theorem WFTE_nodup_keys (m : Entries) (h : WFTE m = true) :
    (m.map Prod.fst).Nodup := by
  induction m with
  | nil => simp
  | cons p rest ih =>
    obtain ⟨hnone, _, hrest⟩ := WFTE_cons2 p rest h
    rw [List.map_cons, List.nodup_cons]
    refine ⟨?_, ih hrest⟩
    rw [Option.isNone_iff_eq_none, lookupA_eq_none_iff] at hnone
    exact hnone

theorem niceRTE_nodup_keys (sep : PyStr) (d : Entries)
    (h : NiceRTE sep d = true) : (d.map Prod.fst).Nodup := by
  induction d with
  | nil => simp
  | cons p rest ih =>
    obtain ⟨_, hnone, _, hrest⟩ := niceRTE_cons sep p rest h
    rw [List.map_cons, List.nodup_cons]
    refine ⟨?_, ih hrest⟩
    rw [Option.isNone_iff_eq_none, lookupA_eq_none_iff] at hnone
    exact hnone

mutual

theorem niceRT_WFT (sep : PyStr) (v : Val) (h : NiceRT sep v = true) :
    WFT v = true := by
  cases v with
  | dict es =>
    simp only [NiceRT, Bool.and_eq_true] at h
    simp only [WFT, Bool.and_eq_true]
    exact ⟨h.1, niceRTE_WFTE sep es h.2⟩
  | null => rfl
  | bool b => rfl
  | int n => rfl
  | str s2 => rfl
  | list xs => rfl
termination_by Val.weight v
decreasing_by
  all_goals subst_vars
  all_goals simp [Val.weight, Val.weightE, Val.weightL, weightE_cons]

theorem niceRTE_WFTE (sep : PyStr) (d : Entries) (h : NiceRTE sep d = true) :
    WFTE d = true := by
  cases d with
  | nil => rfl
  | cons p rest =>
    obtain ⟨_, hnone, hval, hrest⟩ := niceRTE_cons sep p rest h
    have hshow : WFTE (p :: rest)
        = ((lookupA rest p.1).isNone && WFT p.2 && WFTE rest) := by
      obtain ⟨k, v⟩ := p
      rfl
    rw [hshow]
    simp only [Bool.and_eq_true]
    exact ⟨⟨hnone, niceRT_WFT sep p.2 hval⟩, niceRTE_WFTE sep rest hrest⟩
termination_by Val.weightE d
decreasing_by
  all_goals subst_vars
  all_goals simp [Val.weight, Val.weightE, Val.weightL, weightE_cons]
  all_goals omega

end

theorem WFTE_mem_WFT (m : Entries) (p : PyStr × Val) (hm : WFTE m = true)
    (hp : p ∈ m) : WFT p.2 = true :=
  WFTE_lookup m p.1 p.2 hm (mem_lookup_of_nodup m p (WFTE_nodup_keys m hm) hp)

theorem entry_leaf_mem (m : Entries) (p : PyStr × Val)
    (hnd : (m.map Prod.fst).Nodup) (hp : p ∈ m) (q : List PyStr × Val)
    (hq : q ∈ leavesV p.2) : (p.1 :: q.1, q.2) ∈ leavesE m :=
  leaves_mem_of_lookup m p.1 p.2 (mem_lookup_of_nodup m p hnd hp) q hq

theorem leaves_head_lookup (m : Entries) (k : PyStr) (tl : List PyStr)
    (w : Val) (hnd : (m.map Prod.fst).Nodup) (hq : (k :: tl, w) ∈ leavesE m) :
    ∃ vd, lookupA m k = some vd ∧ (tl, w) ∈ leavesV vd := by
  induction m with
  | nil => simp [leavesE] at hq
  | cons p rest ih =>
    rw [List.map_cons, List.nodup_cons] at hnd
    rw [leavesE_cons2] at hq
    rcases List.mem_append.mp hq with hl | hr
    · rcases List.mem_map.mp hl with ⟨⟨q01, q02⟩, hq0, he⟩
      rw [Prod.mk.injEq] at he
      obtain ⟨he1, he2⟩ := he
      injection he1 with he1a he1b
      subst he1b
      subst he2
      refine ⟨p.2, ?_, hq0⟩
      obtain ⟨k1, v1⟩ := p
      simp only at he1a
      simp [lookupA, he1a]
    · have hsome := leaves_head_isSome k tl w rest hr
      have hkmem : k ∈ rest.map Prod.fst := by
        by_contra hkm
        rw [← lookupA_eq_none_iff] at hkm
        rw [hkm] at hsome
        simp at hsome
      have hne : ¬ p.1 = k := fun he => hnd.1 (by rw [he]; exact hkmem)
      rcases ih hnd.2 hr with ⟨vd, hvd, hmem⟩
      refine ⟨vd, ?_, hmem⟩
      obtain ⟨k1, v1⟩ := p
      simp only at hne
      simp [lookupA, hne, hvd]

theorem weightE_pos (d : Entries) : 1 ≤ Val.weightE d := by
  cases d with
  | nil => simp [Val.weightE]
  | cons p rest =>
    rw [weightE_cons]
    omega

theorem weight_pos (v : Val) : 1 ≤ Val.weight v := by
  cases v <;> simp [Val.weight] <;> omega

theorem weight_lookup_lt (d : Entries) (k : PyStr) (vd : Val)
    (h : lookupA d k = some vd) : Val.weight vd < Val.weightE d := by
  induction d with
  | nil => simp [lookupA] at h
  | cons p rest ih =>
    rw [weightE_cons]
    obtain ⟨k1, v1⟩ := p
    by_cases hk : k1 = k
    · simp only [lookupA, hk, if_true, Option.some.injEq] at h
      subst h
      simp only
      omega
    · simp only [lookupA, hk, if_false] at h
      have := ih h
      omega

/-- Select the leaves under a given top-level key, dropping that key from
the path. -/
def headFilter (k : PyStr) (q : List PyStr × Val) : Option (List PyStr × Val) :=
  match q.1 with
  | [] => none
  | k0 :: tl => if k0 = k then some (tl, q.2) else none

/-- `WFT` without the non-emptiness requirement at the root. -/
def WFTD : Val → Bool
  | .dict es => WFTE es
  | _ => true

theorem WFT_to_WFTD (v : Val) (h : WFT v = true) : WFTD v = true := by
  cases v with
  | dict es =>
    simp only [WFT, Bool.and_eq_true] at h
    exact h.2
  | null => rfl
  | bool b => rfl
  | int n => rfl
  | str s2 => rfl
  | list xs => rfl

theorem leavesE_headFilter (m : Entries) (k : PyStr) (w : Val)
    (hnd : (m.map Prod.fst).Nodup) (h : lookupA m k = some w) :
    (leavesE m).filterMap (headFilter k) = leavesV w := by
  induction m with
  | nil => simp [lookupA] at h
  | cons p rest ih =>
    rw [List.map_cons, List.nodup_cons] at hnd
    rw [leavesE_cons2, List.filterMap_append, List.filterMap_map]
    by_cases hk : p.1 = k
    · have hw : w = p.2 := by
        obtain ⟨k1, v1⟩ := p
        simp only at hk
        simp only [lookupA, hk, if_true, Option.some.injEq] at h
        exact h.symm
      have hcomp : (headFilter k ∘ fun q : List PyStr × Val =>
          (p.1 :: q.1, q.2)) = some := by
        funext q
        simp [headFilter, Function.comp, hk]
      rw [hcomp, List.filterMap_some]
      have hrest : (leavesE rest).filterMap (headFilter k) = [] := by
        rw [List.filterMap_eq_nil_iff]
        intro q hq
        have hqn := leaves_ne_nil q rest hq
        cases hcq : q.1 with
        | nil => exact absurd hcq hqn
        | cons k0 tl =>
          have hsome := leaves_head_isSome k0 tl q.2 rest (by rw [← hcq]; exact hq)
          have hne : ¬ k0 = k := by
            intro he
            have hmm : p.1 ∈ rest.map Prod.fst := by
              by_contra hmem
              have hnone2 := (lookupA_eq_none_iff rest p.1).mpr hmem
              rw [hk, ← he] at hnone2
              rw [hnone2] at hsome
              simp at hsome
            exact hnd.1 hmm
          simp [headFilter, hcq, hne]
      rw [hrest, hw]
      simp
    · have hcomp : ∀ q ∈ leavesV p.2,
          (headFilter k ∘ fun q : List PyStr × Val => (p.1 :: q.1, q.2)) q
            = none := by
        intro q _
        simp [headFilter, Function.comp, hk]
      rw [List.filterMap_eq_nil_iff.mpr hcomp]
      have h2 : lookupA rest k = some w := by
        obtain ⟨k1, v1⟩ := p
        simp only at hk
        simp only [lookupA, hk, if_false] at h
        exact h
      rw [ih hnd.2 h2]
      simp

theorem vequivF_nondict (f : Nat) (a b : Val)
    (h : ∀ es1 es2, ¬ (a = Val.dict es1 ∧ b = Val.dict es2)) :
    vequivF (f+1) a b = Val.beq a b := by
  cases a <;> cases b <;>
    first
    | rfl
    | exact absurd ⟨rfl, rfl⟩ (h _ _)

theorem nondict_leaves (a : Val) (h : ∀ es, ¬ a = Val.dict es) :
    leavesV a = [([], a)] := by
  cases a with
  | dict es => exact absurd rfl (h es)
  | null => rfl
  | bool b => rfl
  | int n => rfl
  | str s2 => rfl
  | list xs => rfl

theorem leaves_perm_vequivV (fuel : Nat) : ∀ a b : Val,
    Val.weight b ≤ fuel → WFTD a = true → WFTD b = true →
    List.Perm (leavesV a) (leavesV b) → vequivF fuel a b = true := by
  induction fuel with
  | zero =>
    intro a b hf _ _ _
    have := weight_pos b
    omega
  | succ f ih =>
    intro a b hf hwa hwb hperm
    by_cases hda : ∃ es, a = Val.dict es
    · rcases hda with ⟨es1, ha⟩
      subst ha
      by_cases hdb : ∃ es, b = Val.dict es
      · rcases hdb with ⟨es2, hb⟩
        subst hb
        have hwm : WFTE es1 = true := hwa
        have hwd : WFTE es2 = true := hwb
        have hndm := WFTE_nodup_keys es1 hwm
        have hndd := WFTE_nodup_keys es2 hwd
        have hperm2 : List.Perm (leavesE es1) (leavesE es2) := hperm
        have hstep : vequivF (f+1) (.dict es1) (.dict es2)
            = ((es1.all fun p =>
                match lookupA es2 p.1 with
                | none => false
                | some v2 => vequivF f p.2 v2)
              && (es2.all fun p => (lookupA es1 p.1).isSome)) := rfl
        rw [hstep, Bool.and_eq_true]
        constructor
        · rw [List.all_eq_true]
          intro p hp
          have hwfp := WFTE_mem_WFT es1 p hwm hp
          cases hlv : leavesV p.2 with
          | nil => exact absurd hlv (WFT_leaves_ne p.2 hwfp)
          | cons q0 qrest =>
            have hq0 : q0 ∈ leavesV p.2 := by
              rw [hlv]
              simp
            have hm1 : (p.1 :: q0.1, q0.2) ∈ leavesE es1 :=
              entry_leaf_mem es1 p hndm hp q0 hq0
            have hd1 : (p.1 :: q0.1, q0.2) ∈ leavesE es2 :=
              hperm2.mem_iff.mp hm1
            rcases leaves_head_lookup es2 p.1 q0.1 q0.2 hndd hd1
              with ⟨vd, hvd, _⟩
            rw [hvd]
            show vequivF f p.2 vd = true
            have hpermv : List.Perm (leavesV p.2) (leavesV vd) := by
              rw [← leavesE_headFilter es1 p.1 p.2 hndm
                    (mem_lookup_of_nodup es1 p hndm hp),
                  ← leavesE_headFilter es2 p.1 vd hndd hvd]
              exact hperm2.filterMap _
            have hwlt : Val.weight vd ≤ f := by
              have h1 := weight_lookup_lt es2 p.1 vd hvd
              have h2 : Val.weightE es2 + 1 ≤ f + 1 := by
                have : Val.weight (Val.dict es2) = Val.weightE es2 + 1 := rfl
                omega
              omega
            exact ih p.2 vd hwlt
              (WFT_to_WFTD p.2 hwfp)
              (WFT_to_WFTD vd (WFTE_lookup es2 p.1 vd hwd hvd))
              hpermv
        · rw [List.all_eq_true]
          intro p hp
          have hwfp := WFTE_mem_WFT es2 p hwd hp
          cases hlv : leavesV p.2 with
          | nil => exact absurd hlv (WFT_leaves_ne p.2 hwfp)
          | cons q0 qrest =>
            have hq0 : q0 ∈ leavesV p.2 := by
              rw [hlv]
              simp
            have hd1 : (p.1 :: q0.1, q0.2) ∈ leavesE es2 :=
              entry_leaf_mem es2 p hndd hp q0 hq0
            have hm1 : (p.1 :: q0.1, q0.2) ∈ leavesE es1 :=
              hperm2.symm.mem_iff.mp hd1
            exact leaves_head_isSome p.1 q0.1 q0.2 es1 hm1
      · exfalso
        push_neg at hdb
        have hlb := nondict_leaves b hdb
        rw [hlb] at hperm
        rw [List.perm_singleton] at hperm
        have hmem : (([] : List PyStr), b) ∈ leavesE es1 := by
          rw [show leavesV (Val.dict es1) = leavesE es1 from rfl] at hperm
          rw [hperm]
          simp
        exact leaves_ne_nil _ es1 hmem rfl
    · push_neg at hda
      have hla := nondict_leaves a hda
      by_cases hdb : ∃ es, b = Val.dict es
      · exfalso
        rcases hdb with ⟨es2, hb⟩
        subst hb
        rw [hla] at hperm
        have hperm3 := hperm.symm
        rw [List.perm_singleton] at hperm3
        have hmem : (([] : List PyStr), a) ∈ leavesE es2 := by
          rw [show leavesV (Val.dict es2) = leavesE es2 from rfl] at hperm3
          rw [hperm3]
          simp
        exact leaves_ne_nil _ es2 hmem rfl
      · push_neg at hdb
        have hlb := nondict_leaves b hdb
        rw [hla, hlb, List.perm_singleton] at hperm
        have hab : a = b := by
          injection hperm with h1 h2
          exact congrArg Prod.snd h1
        subst hab
        rw [vequivF_nondict f a a
          (fun es1 es2 h2 => hda es1 h2.1)]
        exact (Val.beq_iff a a).mpr rfl

theorem foldlM_insertAll (sep : PyStr) (l : Entries) : ∀ acc : Entries,
    l.foldlM (fun a p => insertPath a (quoted_split p.1 sep) p.2) acc
      = insertAll (l.map (fun p => (quoted_split p.1 sep, p.2))) acc := by
  induction l with
  | nil =>
    intro acc
    rfl
  | cons p rest ih =>
    intro acc
    show (insertPath acc (quoted_split p.1 sep) p.2 >>= fun init =>
        rest.foldlM (fun a p => insertPath a (quoted_split p.1 sep) p.2) init)
      = (insertPath acc (quoted_split p.1 sep) p.2 >>= fun init =>
        insertAll (rest.map (fun p => (quoted_split p.1 sep, p.2))) init)
    cases h : insertPath acc (quoted_split p.1 sep) p.2 with
    | none => rfl
    | some a =>
      simp only [Option.bind_eq_bind, Option.some_bind]
      exact ih a

theorem make_currentFlat (sep : PyStr) (hsep : sep ≠ [])
    (hov : overlapFreeB sep = true) (d : Entries)
    (hn : NiceRTE sep d = true) :
    (DictBlender.make d true sep true).currentFlat
      = (leavesE d).map (fun q => (joinSep sep q.1, q.2)) := by
  have hmk : (DictBlender.make d true sep true).currentFlat
      = updAll [] (flattenD sep true d [] []).1 := rfl
  have heq := flattenItems_leaves sep hsep hov d hn [] []
    (by simp) (fun q hq => rfl)
  have heq2 : flattenItems sep true d [] []
      = ((leavesE d).map (fun q => (joinSep sep q.1, q.2)),
         ([] : ListsState) ++ (leavesE d).filterMap (fun q =>
           match q.2 with
           | .list xs => some (joinSep sep q.1, xs)
           | _ => none)) := heq
  have hnd : (((leavesE d).map
      (fun q => (joinSep sep q.1, q.2))).map Prod.fst).Nodup := by
    rw [List.map_map]
    exact flat_keys_nodup sep hsep hov d hn
  have hfd : (flattenD sep true d [] []).1
      = (leavesE d).map (fun q => (joinSep sep q.1, q.2)) := by
    show (dedupItems (flattenItems sep true d [] []).1)
      = (leavesE d).map (fun q => (joinSep sep q.1, q.2))
    rw [heq2]
    exact dedupItems_id _ hnd
  rw [hmk, hfd]
  rw [updAll_disjoint _ [] hnd (fun p hp => rfl)]
  simp

theorem unflatten_flat (sep : PyStr) (hsep : sep ≠ [])
    (hov : overlapFreeB sep = true) (hqd : sep.contains dq = false)
    (hqs : sep.contains sq = false) (d : Entries)
    (hn : NiceRTE sep d = true) :
    ∃ m, unflattenD sep
        ((leavesE d).map (fun q => (joinSep sep q.1, q.2))) true = some m
      ∧ List.Perm (leavesE m) (leavesE d) ∧ WFTE m = true := by
  set flat := (leavesE d).map (fun q => (joinSep sep q.1, q.2)) with hflat
  have hqsplit : ∀ q ∈ leavesE d, quoted_split (joinSep sep q.1) sep = q.1 := by
    intro q hq
    have hnq := niceRTE_leavesE sep d hn q hq
    have hcd : (joinSep sep q.1).contains dq = false :=
      joinSep_contains sep q.1 dq hqd
        (fun x hx => (niceKeyB_parts sep x (hnq.2.1 x hx)).2.1)
    have hcs : (joinSep sep q.1).contains sq = false :=
      joinSep_contains sep q.1 sq hqs
        (fun x hx => (niceKeyB_parts sep x (hnq.2.1 x hx)).2.2.1)
    rw [quoted_split_noquote sep _ hcd hcs]
    exact splitSep_joinSep sep hsep hov q.1 hnq.1
      (fun x hx => (niceKeyB_parts sep x (hnq.2.1 x hx)).2.2.2)
  have hmapflat : flat.map (fun p => (quoted_split p.1 sep, p.2))
      = leavesE d := by
    rw [hflat, List.map_map]
    have h2 : (leavesE d).map ((fun p : PyStr × Val =>
        (quoted_split p.1 sep, p.2)) ∘ (fun q : List PyStr × Val =>
        (joinSep sep q.1, q.2)))
        = (leavesE d).map (fun q => q) := by
      apply List.map_congr_left
      intro q hq
      simp only [Function.comp]
      rw [hqsplit q hq]
    rw [h2]
    simp
  have hSperm : List.Perm
      ((sortEntries flat).map (fun p => (quoted_split p.1 sep, p.2)))
      (leavesE d) := by
    rw [← hmapflat]
    exact (List.perm_insertionSort _ flat).map _
  have hsymm : ∀ {a b : List PyStr × Val},
      (pfxOf a.1 b.1 = false ∧ pfxOf b.1 a.1 = false) →
      (pfxOf b.1 a.1 = false ∧ pfxOf a.1 b.1 = false) :=
    fun h => ⟨h.2, h.1⟩
  rcases insertAll_leaves
      ((sortEntries flat).map (fun p => (quoted_split p.1 sep, p.2))) []
      (fun q hq => by
        have hq2 := hSperm.mem_iff.mp hq
        have hnq := niceRTE_leavesE sep d hn q hq2
        exact ⟨hnq.1, hnq.2.2⟩)
      ((hSperm.pairwise_iff hsymm).mpr (niceRTE_pairE sep d hn))
      (fun a _ q hq => by simp [leavesE] at hq)
      rfl
    with ⟨m, hins, hperm, hwfm⟩
  refine ⟨m, ?_, ?_, hwfm⟩
  · show (sortEntries flat).foldlM
      (fun acc p => insertPath acc (quoted_split p.1 sep) p.2) [] = some m
    rw [foldlM_insertAll]
    exact hins
  · refine hperm.trans ?_
    rw [show leavesE ([] : Entries) = [] from rfl, List.append_nil]
    exact hSperm

theorem itemsLE_nil_false (e : Entries) (he : e ≠ []) : itemsLE e [] = false := by
  cases e with
  | nil => exact absurd rfl he
  | cons p rest => simp [itemsLE, lookupA]

theorem cmpStep_fold_empty (uk : List (PyStr × (PyStr × PyStr)))
    (l : Entries) : ∀ st : CmpState, st.flatA = [] →
    l.foldlM (cmpStep uk) st
      = some { st with
          missing := l.foldl (fun acc p => updateA acc p.1 p.2) st.missing } := by
  induction l with
  | nil =>
    intro st _
    rfl
  | cons p rest ih =>
    intro st hA
    have hstep : cmpStep uk st p
        = some { st with missing := updateA st.missing p.1 p.2 } := by
      rw [cmpStep.eq_def, hA]
      rfl
    show (cmpStep uk st p >>= fun st2 => rest.foldlM (cmpStep uk) st2)
      = some { st with
          missing := rest.foldl (fun acc p => updateA acc p.1 p.2)
            (updateA st.missing p.1 p.2) }
    rw [hstep]
    show ((some { st with missing := updateA st.missing p.1 p.2 } : Option CmpState)
        >>= fun st2 => rest.foldlM (cmpStep uk) st2) = _
    exact ih { st with missing := updateA st.missing p.1 p.2 } hA

/-- C1: the claimed round trip fails even for a mapping whose keys never
contain the flatten separator: `_flatten` silently drops the empty dict
value of `(a: \x7b\x7d)`, so `mix` returns the empty mapping, which is
not equal to the input up to key re-ordering. -/
theorem C1_counterexample :
    (DictBlender.makeDefault [("a".toList, Val.dict [])]).mix true = some []
    ∧ vequiv (.dict []) (.dict [("a".toList, Val.dict [])]) = false
    ∧ [("a".toList, Val.dict [])] ≠ ([] : Entries) := by
  refine ⟨rfl, rfl, ?_⟩
  decide

/-- C1 (amended): for a nested mapping whose keys at every dict level are
non-empty, quote-free and separator-free and unique, and whose dict
values are never empty, flattening (`DictBlender(dict_)`) and unflattening
(`mix`) returns a mapping structurally equal to the input up to
re-ordering of keys. -/
theorem C1_amended_roundtrip (d : Entries)
    (hn : NiceRTE SEPARATOR_FLATTEN d = true) :
    ∃ m, (DictBlender.makeDefault d).mix true = some m
      ∧ vequiv (.dict m) (.dict d) = true := by
  have hsep : SEPARATOR_FLATTEN ≠ [] := by decide
  have hov : overlapFreeB SEPARATOR_FLATTEN = true := by decide
  have hqd : SEPARATOR_FLATTEN.contains dq = false := by decide
  have hqs : SEPARATOR_FLATTEN.contains sq = false := by decide
  have hflat := make_currentFlat SEPARATOR_FLATTEN hsep hov d hn
  rcases unflatten_flat SEPARATOR_FLATTEN hsep hov hqd hqs d hn
    with ⟨m, hunf, hperm, hwfm⟩
  refine ⟨m, ?_, ?_⟩
  · show unflattenD SEPARATOR_FLATTEN
      (DictBlender.make d true SEPARATOR_FLATTEN true).currentFlat true
      = some m
    rw [hflat]
    exact hunf
  · show vequivF (Val.weight (.dict m) + Val.weight (.dict d))
      (.dict m) (.dict d) = true
    apply leaves_perm_vequivV
    · have := weight_pos (Val.dict m)
      omega
    · exact hwfm
    · exact niceRTE_WFTE SEPARATOR_FLATTEN d hn
    · exact hperm

/-- C1 (amended) at a concrete input: `(a: 1, b: (c: "x"))` survives the
round trip up to key re-ordering. -/
theorem C1_amended_roundtrip_witness :
    NiceRTE SEPARATOR_FLATTEN [("a".toList, Val.int 1),
      ("b".toList, .dict [("c".toList, .str "x".toList)])] = true
    ∧ ∃ m, (DictBlender.makeDefault [("a".toList, Val.int 1),
        ("b".toList, .dict [("c".toList, .str "x".toList)])]).mix true = some m
      ∧ vequiv (.dict m) (.dict [("a".toList, Val.int 1),
          ("b".toList, .dict [("c".toList, .str "x".toList)])]) = true :=
  ⟨by decide, C1_amended_roundtrip _ (by decide)⟩

/-- C3: the claimed completeness fails for `expected = (a: \x7b\x7d)`,
which is non-empty, yet flattens to the empty dict: the fast path fires
and the comparison reports nothing at all (missing is empty, not equal
to `expected`, and `has_changes` is false). -/
theorem C3_counterexample :
    ([("a".toList, Val.dict [])] ≠ ([] : Entries))
    ∧ compare_with_flatten [] [("a".toList, Val.dict [])] []
      = some ⟨[], [], [], [], []⟩
    ∧ (⟨[], [], [], [], []⟩ : Comparison).missingDict = []
    ∧ (⟨[], [], [], [], []⟩ : Comparison).hasChanges = false := by
  refine ⟨by decide, rfl, rfl, rfl⟩

/-- C3 (amended): for an empty actual document and a non-empty expected
mapping whose keys are flatten-safe for the dot separator (non-empty,
quote- and dot-free, unique) and whose dict values are never empty, the
whole of `expected` lands in the missing bucket (up to key re-ordering)
and the diff and replace buckets are empty. -/
theorem C3_amended (expected : Entries) (uk : List (PyStr × (PyStr × PyStr)))
    (hn : NiceRTE DOT expected = true) (hne : expected ≠ []) :
    ∃ m, compare_with_flatten [] expected uk
        = some ⟨[], (DictBlender.make expected true DOT true).currentFlat,
            m, [], []⟩
      ∧ m ≠ []
      ∧ vequiv (.dict m) (.dict expected) = true := by
  have hsep : DOT ≠ [] := by decide
  have hov : overlapFreeB DOT = true := by decide
  have hqd : DOT.contains dq = false := by decide
  have hqs : DOT.contains sq = false := by decide
  have hflatE := make_currentFlat DOT hsep hov expected hn
  have hlne : leavesE expected ≠ [] :=
    WFTE_leaves_ne expected (niceRTE_WFTE DOT expected hn) hne
  have hfne : (DictBlender.make expected true DOT true).currentFlat ≠ [] := by
    rw [hflatE]
    intro he
    exact hlne (List.map_eq_nil.mp he)
  have hnd : (((DictBlender.make expected true DOT true).currentFlat).map
      Prod.fst).Nodup := by
    rw [hflatE, List.map_map]
    exact flat_keys_nodup DOT hsep hov expected hn
  rcases unflatten_flat DOT hsep hov hqd hqs expected hn
    with ⟨m, hunf, hperm, hwfm⟩
  have hmne : m ≠ [] := by
    intro he
    rw [he] at hperm
    have hl := hperm.length_eq
    rw [show leavesE ([] : Entries) = [] from rfl] at hl
    simp only [List.length_nil] at hl
    cases hc : leavesE expected with
    | nil => exact hlne hc
    | cons x xs =>
      rw [hc] at hl
      simp at hl
  have hupd : updAll [] (DictBlender.make expected true DOT true).currentFlat
      = (DictBlender.make expected true DOT true).currentFlat := by
    rw [updAll_disjoint _ [] hnd (fun p hp => rfl)]
    simp
  refine ⟨m, ?_, hmne, ?_⟩
  · rw [compare_with_flatten.eq_def]
    dsimp only
    rw [show (DictBlender.make [] true DOT true).currentFlat = [] from rfl]
    rw [hflatE]
    have hfne2 : (leavesE expected).map (fun q => (joinSep DOT q.1, q.2))
        ≠ [] := by
      intro he
      exact hlne (List.map_eq_nil.mp he)
    rw [itemsLE_nil_false _ hfne2]
    simp only [Bool.false_eq_true, if_false]
    rw [cmpStep_fold_empty uk _ _ rfl]
    dsimp only
    have hnd2 : (((leavesE expected).map
        (fun q => (joinSep DOT q.1, q.2))).map Prod.fst).Nodup := by
      rw [List.map_map]
      exact flat_keys_nodup DOT hsep hov expected hn
    have hupd2 : updAll []
        ((leavesE expected).map (fun q => (joinSep DOT q.1, q.2)))
        = (leavesE expected).map (fun q => (joinSep DOT q.1, q.2)) := by
      rw [updAll_disjoint _ [] hnd2 (fun p hp => rfl)]
      simp
    rw [show ∀ l : Entries, l.foldl (fun acc p => updateA acc p.1 p.2)
        ([] : Entries) = updAll [] l from fun l => rfl]
    simp only [hupd2, hunf]
    rfl
  · show vequivF (Val.weight (.dict m) + Val.weight (.dict expected))
      (.dict m) (.dict expected) = true
    apply leaves_perm_vequivV
    · have := weight_pos (Val.dict m)
      omega
    · exact hwfm
    · exact niceRTE_WFTE DOT expected hn
    · exact hperm

/-- C3 (amended) at a concrete input: comparing the empty document with
`expected = (a: 1)` puts the whole of `expected` into the missing bucket
and leaves diff and replace empty. -/
theorem C3_amended_witness :
    NiceRTE DOT [("a".toList, Val.int 1)] = true
    ∧ [("a".toList, Val.int 1)] ≠ ([] : Entries)
    ∧ ∃ m, compare_with_flatten [] [("a".toList, Val.int 1)] []
        = some ⟨[], (DictBlender.make [("a".toList, Val.int 1)]
            true DOT true).currentFlat, m, [], []⟩
      ∧ m ≠ []
      ∧ vequiv (.dict m) (.dict [("a".toList, Val.int 1)]) = true :=
  ⟨by decide, by decide, C3_amended _ [] (by decide) (by decide)⟩

end Blender
